import Mathlib

/-!
Verification of the voxclaw voice-session orchestrator (discord-voice plugin).

Shallow embedding of the TypeScript sources:
  - heartbeat.ts        (VoiceHeartbeat: guards and external updaters)
  - audio-pipeline      (AudioPipeline: interrupt, noise filter, sentence to TTS queue)
  - stt                 (transcribe: minimum-length gate, endpoint failure handling)
  - voice-manager.ts    (doReconnect: backoff loop and metric increments)
  - completions.ts      (parseSSEStream, splitSentences, cleanForTTS)
  - tts-cache.ts        (TtsCache: get/set with LRU eviction, getRandomGreeting)

Conventions: timestamps (Date.now()) are explicit Nat parameters; byte buffers
are lists of bytes (List Nat); the JS Map/Set iteration-order semantics are
modelled with association lists that update in place; fallible external calls
(Whisper, TTS, JSON.parse) are modelled by Option-valued oracles passed in as
parameters.  Fuel arguments mirror loops whose termination is by structural
decrease of the data they consume; the fuel passed at every call site is
sufficient, so the fuelled function computes exactly the loop.
-/

namespace Voxclaw

/-! ## Heartbeat (heartbeat.ts)

State of VoiceHeartbeat: the four timestamps, the userSpeaking flag and the
four per-condition firing guards. -/

structure HeartbeatState where
  lastUserSpeechAt : Nat
  lastBotSpeechAt : Nat
  lastFrameReceivedAt : Nat
  sessionStartAt : Nat
  userSpeaking : Bool
  silencePromptFired : Bool
  botStallFired : Bool
  graceAnnounced : Bool
  idleTimeoutFired : Bool
deriving Repr, DecidableEq

/-- heartbeat.ts reportUserSpeech: timestamps lastUserSpeechAt and resets
all four guards. -/
def reportUserSpeech (now : Nat) (s : HeartbeatState) : HeartbeatState :=
  { s with
    lastUserSpeechAt := now
    silencePromptFired := false
    botStallFired := false
    graceAnnounced := false
    idleTimeoutFired := false }

/-- heartbeat.ts reportBotSpeech: timestamps lastBotSpeechAt and resets only
the botStallFired guard. -/
def reportBotSpeech (now : Nat) (s : HeartbeatState) : HeartbeatState :=
  { s with
    lastBotSpeechAt := now
    botStallFired := false }

/-- heartbeat.ts reportAudioFrameReceived. -/
def reportAudioFrameReceived (now : Nat) (s : HeartbeatState) : HeartbeatState :=
  { s with lastFrameReceivedAt := now }

/-- heartbeat.ts setUserSpeaking. -/
def setUserSpeaking (b : Bool) (s : HeartbeatState) : HeartbeatState :=
  { s with userSpeaking := b }

/-! ## Audio pipeline state and interrupt (AudioPipeline, Phase-3 source) -/

/-- Container tag of a queued audio chunk (discord StreamType): Arbitrary is
the compressed TTS output, OggOpus a baked disk phrase. -/
inductive StreamTy where
  | arbitrary
  | oggOpus
deriving Repr, DecidableEq

structure PipelineState where
  /-- utteranceQueue: pending (pcm, uttId) pairs. -/
  utteranceQueue : List (List Nat × String)
  /-- audioQueue: synthesised chunks awaiting playback. -/
  audioQueue : List (List Nat × StreamTy)
  processing : Bool
  playingAudio : Bool
  e2eRecorded : Bool
  /-- currentAbort field is non-null. -/
  currentAbortPresent : Bool
  /-- the abort token handed to the current chat stream has been aborted. -/
  abortSignalled : Bool
  currentUttId : Option String
  lastTranscript : Option String
  utteranceStartAt : Nat
  /-- AudioPlayer status is Idle (true) or actively playing (false). -/
  playerIdle : Bool
deriving Repr, DecidableEq

/-- AudioPipeline.interrupt(): abort the current stream (if any), empty both
FIFOs, force playingAudio and e2eRecorded off, hard-stop the player, clear
processing.  The lastTranscript field is not touched. -/
def interrupt (st : PipelineState) : PipelineState :=
  { st with
    abortSignalled := st.abortSignalled || st.currentAbortPresent
    currentAbortPresent := false
    audioQueue := []
    utteranceQueue := []
    playingAudio := false
    e2eRecorded := false
    playerIdle := true
    processing := false }

/-! ## STT client (transcribe)

The Whisper endpoint is modelled by an oracle: some text on success, none
when the request throws.  The returned record also carries whether the
failure branch logged an error.  Arithmetic of the minimum-byte gate
(minSpeechMs / 1000 * 48000 * 2 * 2) is exact rational arithmetic. -/

/-- The JS whitespace class (the set matched by backslash-s in a regex and
stripped by String.prototype.trim): ASCII spacing characters, NBSP, the
Unicode space separators, the line separators and the BOM. -/
def isJsSpace (c : Char) : Bool :=
  c = ' ' || c = '\t' || c = '\n' || c = '\x0b' || c = '\x0c' || c = '\r' ||
  c.toNat = 0xa0 || c.toNat = 0x1680 ||
  (0x2000 ≤ c.toNat && c.toNat ≤ 0x200a) ||
  c.toNat = 0x2028 || c.toNat = 0x2029 || c.toNat = 0x202f || c.toNat = 0x205f ||
  c.toNat = 0x3000 || c.toNat = 0xfeff

/-- JS String.prototype.trim on a character list: drop leading and trailing
whitespace. -/
def jsTrimList (l : List Char) : List Char :=
  ((l.dropWhile isJsSpace).reverse.dropWhile isJsSpace).reverse

/-- JS String.prototype.trim. -/
def jsTrim (s : String) : String :=
  String.mk (jsTrimList s.data)

structure TranscribeResult where
  text : String
  loggedError : Bool
deriving Repr, DecidableEq

/-- stt transcribe: reject empty buffers, reject buffers shorter than the
minSpeechMs gate, otherwise call the endpoint and return its text trimmed;
a thrown endpoint error is caught, logged, and yields the empty string. -/
def transcribe (pcmLen : Nat) (minSpeechMs : ℚ) (endpoint : Option String) :
    TranscribeResult :=
  if pcmLen = 0 then ⟨"", false⟩
  else
    let minBytes : ℚ := minSpeechMs / 1000 * 192000
    if (pcmLen : ℚ) < minBytes then ⟨"", false⟩
    else
      match endpoint with
      | some text => ⟨jsTrim text, false⟩
      | none => ⟨"", true⟩

/-! ## Reconnect loop (voice-manager.ts doReconnect)

One reconnect episode.  The nth attempt is described by an oracle: the
connection may have been torn down during the backoff sleep (connectionGone),
the Signalling/Ready waits may time out (fail), or the attempt reaches Ready
(ok).  The outcome records the deltas applied to the two reconnect metric
counters, the attempts actually made, the backoff delays slept, and whether
the episode ended by tearing the session down. -/

inductive AttemptResult where
  | connectionGone
  | fail
  | ok
deriving Repr, DecidableEq

structure ReconnectOutcome where
  /-- increments applied to voice.reconnect.count during the episode. -/
  countDelta : Nat
  /-- increments applied to voice.reconnect.success during the episode. -/
  successDelta : Nat
  /-- loop iterations that actually ran. -/
  attemptsMade : Nat
  /-- backoff delays slept, in order. -/
  delays : List Nat
  /-- leaveChannel was called after exhausting all attempts. -/
  toreDown : Bool
deriving Repr, DecidableEq

/-- The attempt loop of doReconnect, from attempt number `attempt` with
`remaining` attempts left.  Mirrors the for-loop body: sleep the clamped
exponential backoff, return early if the connection vanished, try
Signalling then Ready, and on success count one reconnect success. -/
def reconnectFrom (backoff maxBackoff : Nat) (results : Nat → AttemptResult) :
    Nat → Nat → ReconnectOutcome
  | _, 0 =>
      { countDelta := 1, successDelta := 0, attemptsMade := 0, delays := [],
        toreDown := true }
  | attempt, remaining + 1 =>
      let delay := min (backoff * 2 ^ (attempt - 1)) maxBackoff
      match results attempt with
      | .connectionGone =>
          { countDelta := 1, successDelta := 0, attemptsMade := 1,
            delays := [delay], toreDown := false }
      | .ok =>
          { countDelta := 1, successDelta := 1, attemptsMade := 1,
            delays := [delay], toreDown := false }
      | .fail =>
          let rest := reconnectFrom backoff maxBackoff results (attempt + 1) remaining
          { rest with
            attemptsMade := rest.attemptsMade + 1
            delays := delay :: rest.delays }

/-- voice-manager.ts doReconnect: voice.reconnect.count is incremented once,
before the attempt loop; then attempts 1..maxReconnectAttempts run. -/
def doReconnect (maxReconnectAttempts backoff maxBackoff : Nat)
    (results : Nat → AttemptResult) : ReconnectOutcome :=
  reconnectFrom backoff maxBackoff results 1 maxReconnectAttempts

/-! ## Noise filter (AudioPipeline.processNextUtterance, Phase-3 source)

After STT, an utterance whose transcript is empty is skipped; with the noise
filter enabled (config value not explicitly false) a transcript of at most
two words matching one of the two noise regexes is skipped; otherwise the
drain proceeds to the streaming chat stage.  The effects record collects what
the rest of the drain body would do: chat/TTS metric increments, queued audio
chunks, and whether the drain moves on to the next queued utterance. -/

/-- Field count of transcript.split over a whitespace-run regex: one more
than the number of maximal whitespace runs (JS split produces empty fields
at the boundaries). -/
def wsRunCount : List Char → Bool → Nat
  | [], _ => 0
  | c :: r, inRun =>
      if isJsSpace c then
        if inRun then wsRunCount r true else 1 + wsRunCount r true
      else wsRunCount r false

/-- transcript.split(whitespace-run regex).length in JS. -/
def jsSplitWsCount (s : String) : Nat :=
  wsRunCount s.data false + 1

/-- ASCII lower-casing of the case-insensitive regex match. -/
def asciiLower (s : String) : String :=
  String.mk (s.data.map fun c =>
    if 'A' ≤ c ∧ c ≤ 'Z' then Char.ofNat (c.toNat + 32) else c)

/-- The first noise pattern: a filler word, optionally followed by a single
full stop, matched case-insensitively against the whole transcript. -/
def matchesFiller (s : String) : Bool :=
  let t := asciiLower s
  ["um", "uh", "hmm", "oh", "ah", "huh"].any fun w => t = w || t = w ++ "."

/-- A regex word character: ASCII letter, digit or underscore. -/
def isJsWordChar (c : Char) : Bool :=
  ('a' ≤ c && c ≤ 'z') || ('A' ≤ c && c ≤ 'Z') || ('0' ≤ c && c ≤ '9') || c = '_'

/-- The second noise pattern: one or more characters, all non-word. -/
def matchesNonWord (s : String) : Bool :=
  !s.data.isEmpty && s.data.all fun c => !isJsWordChar c

/-- The isNoise test of the drain loop: word count at most 2 and one of the
two noise patterns matches. -/
def isNoise (t : String) : Bool :=
  jsSplitWsCount t ≤ 2 && (matchesFiller t || matchesNonWord t)

inductive UtteranceDecision where
  | filteredEmpty
  | filteredNoise
  | proceed
deriving Repr, DecidableEq

/-- The decision taken by processNextUtterance once the transcript is back
from STT.  noiseFilterEnabled is the raw config field; the source checks
that it is not explicitly false. -/
def utteranceDecision (noiseFilterEnabled : Option Bool) (transcript : String) :
    UtteranceDecision :=
  if transcript = "" then .filteredEmpty
  else if noiseFilterEnabled ≠ some false ∧ isNoise transcript then .filteredNoise
  else .proceed

/-- What the remainder of one drain iteration does: metric increments for the
chat and TTS stages, audio chunks appended to the playback queue, and whether
the drain continues with the next queued utterance. -/
structure UtteranceEffects where
  llmRequests : Nat
  ttsRequests : Nat
  chunks : List (List Nat × StreamTy)
  continuesNext : Bool
deriving Repr, DecidableEq

/-- Effects of the filtered branches: log the UTTERANCE_FILTERED event, reset
processing and re-enter the drain; nothing reaches the chat or TTS stages. -/
def filteredEffects : UtteranceEffects :=
  { llmRequests := 0, ttsRequests := 0, chunks := [], continuesNext := true }

/-- One drain iteration after STT_DONE: apply the decision; only the proceed
branch runs the streaming chat stage (whose effects are the chatStage
argument, applied to the transcript that was also saved as lastTranscript). -/
def processTranscriptStage (noiseFilterEnabled : Option Bool) (transcript : String)
    (chatStage : String → UtteranceEffects) : UtteranceEffects :=
  match utteranceDecision noiseFilterEnabled transcript with
  | .filteredEmpty => filteredEffects
  | .filteredNoise => filteredEffects
  | .proceed => chatStage transcript

/-! ## Sentence-to-audio ordering (AudioPipeline.synthesiseAndQueue)

The per-sentence callback of the streaming chat client calls
synthesiseAndQueue, a fire-and-forget wrapper around the async
synthesiseAsync.  Up to its first await the async body runs synchronously:
the cache probe happens at sentence arrival, and on a cache hit the chunk is
pushed onto the audio FIFO before the callback returns.  On a miss the chunk
is pushed only when the TTS HTTP call resolves.  A trace interleaves the
sentence arrivals (in production order, fired sequentially by the single SSE
reader) with the TTS completions of the cache-missing sentences. -/

inductive SseEvent where
  | arrive (i : Nat)
  | ttsComplete (i : Nat)
deriving Repr, DecidableEq

/-- Sentence indices pushed onto the audio FIFO, in push order: a cache-hit
sentence is pushed at its arrival event, a cache-miss sentence at its TTS
completion event. -/
def chunkPushes (hit : Nat → Bool) (tr : List SseEvent) : List Nat :=
  tr.filterMap fun e =>
    match e with
    | .arrive i => if hit i then some i else none
    | .ttsComplete i => some i

/-- The arrival events of a trace, in order. -/
def arriveEvents (tr : List SseEvent) : List Nat :=
  tr.filterMap fun e => match e with | .arrive i => some i | _ => none

/-- The TTS completion events of a trace, in order. -/
def completeEvents (tr : List SseEvent) : List Nat :=
  tr.filterMap fun e => match e with | .ttsComplete i => some i | _ => none

/-- A trace of one utterance with n produced sentences: the arrivals are
exactly sentences 0..n-1 in production order; exactly the cache-missing
sentences complete a TTS call, each once, after its own arrival. -/
structure ValidTrace (n : Nat) (hit : Nat → Bool) (tr : List SseEvent) : Prop where
  arrivals : arriveEvents tr = List.range n
  completes : (completeEvents tr).Perm ((List.range n).filter fun i => !hit i)
  ordering : ∀ i < n, hit i = false →
    tr.indexOf (SseEvent.arrive i) < tr.indexOf (SseEvent.ttsComplete i)

/-! ## Chat-stream client (completions.ts)

parseSSEStream reads decoded text chunks, splits each on newlines, and walks
the lines: a line not starting with the data prefix is skipped; the prefix is
sliced off and the payload trimmed; the DONE payload breaks out of the line
loop of the current chunk; otherwise the payload is parsed as JSON and the
content delta (modelled by the parseDelta oracle; none covers both malformed
JSON and a missing or empty field) is accumulated into the full text and the
sentence buffer, from which completed sentences are split, cleaned and
emitted. -/

/-- The second alternative of the sentence regex: everything up to and
including the next newline. -/
def sentenceAlt2 (s : List Char) : Option (List Char × List Char) :=
  let pre := s.takeWhile fun c => c ≠ '\n'
  match s.drop pre.length with
  | c :: r => some (pre ++ [c], r)
  | [] => none

/-- Match of the sentence regex anchored at the current position: either
non-terminator characters, then one of . ! ?, then at least one whitespace
character (greedy); or, failing that, everything up to a newline.  Returns
the matched text and the rest of the input. -/
def sentenceMatchAt (s : List Char) : Option (List Char × List Char) :=
  let pre := s.takeWhile fun c => !(c = '.' || c = '!' || c = '?' || c = '\n')
  match s.drop pre.length with
  | c :: r =>
      if c = '.' || c = '!' || c = '?' then
        let ws := r.takeWhile isJsSpace
        if ws.isEmpty then sentenceAlt2 s
        else some (pre ++ c :: ws, r.drop ws.length)
      else sentenceAlt2 s
  | [] => sentenceAlt2 s

/-- The exec loop of splitSentences: find the leftmost match from the current
position, push its trimmed text when non-empty, and continue after the match;
characters skipped between matches belong to the remainder only when no
further match follows (the remainder is the text after the last match).  The
fuel is at least the input length plus one, which the call site supplies. -/
def splitGo (fuel : Nat) (s skipped : List Char) (acc : List (List Char)) :
    List (List Char) × List Char :=
  match fuel with
  | 0 => (acc, skipped ++ s)
  | fuel + 1 =>
    match sentenceMatchAt s with
    | some (m, rest) =>
        let t := jsTrimList m
        splitGo fuel rest [] (if t.isEmpty then acc else acc ++ [t])
    | none =>
        match s with
        | [] => (acc, skipped)
        | c :: r => splitGo fuel r (skipped ++ [c]) acc

/-- completions.ts splitSentences: completed sentences and the residual
tail. -/
def splitSentences (s : List Char) : List (List Char) × List Char :=
  splitGo (s.length + 1) s [] []

/-- One global regex replacement pass: scan left to right maintaining the
at-line-start flag; the matcher receives that flag and the current suffix and
yields the number of characters consumed (always at least one) and the
replacement to emit.  Fuel is at least the input length plus one. -/
def replacePass (m : Bool → List Char → Option (Nat × List Char)) :
    Nat → Bool → List Char → List Char
  | 0, _, s => s
  | _ + 1, _, [] => []
  | fuel + 1, atStart, c :: rest =>
    match m atStart (c :: rest) with
    | some (k, rep) =>
        rep ++ replacePass m fuel
          (((c :: rest).take k).getLast? = some '\n')
          ((c :: rest).drop k)
    | none => c :: replacePass m fuel (c = '\n') rest

/-- Run one replacement pass over the whole string (position 0 is a line
start). -/
def runPass (m : Bool → List Char → Option (Nat × List Char)) (s : List Char) :
    List Char :=
  replacePass m (s.length + 1) true s

/-- The backtick character, written by code point. -/
def backtick : Char := '\x60'

/-- First index at which three consecutive backticks start. -/
def findTripleTick : List Char → Option Nat
  | [] => none
  | c :: r =>
      if c = backtick ∧ r.take 2 = [backtick, backtick] then some 0
      else (findTripleTick r).map (· + 1)

/-- Fenced code block: three backticks, a lazy body, three backticks;
replaced by the code-omitted marker. -/
def fenceMatch (s : List Char) : Option (Nat × List Char) :=
  if s.take 3 = [backtick, backtick, backtick] then
    match findTripleTick (s.drop 3) with
    | some j => some (3 + j + 3, " (code omitted) ".data)
    | none => none
  else none

/-- Delimited span: opener, then a non-empty body free of the stop character,
then closer; replaced by the body.  Instantiated for inline code, bold,
italics and the underscore emphases. -/
def encloseMatch (opener : List Char) (stop : Char) (closer : List Char)
    (s : List Char) : Option (Nat × List Char) :=
  if s.take opener.length = opener then
    let body := (s.drop opener.length).takeWhile fun c => c ≠ stop
    if body.isEmpty then none
    else if (s.drop (opener.length + body.length)).take closer.length = closer then
      some (opener.length + body.length + closer.length, body)
    else none
  else none

/-- Leading header marks: at a line start, one to six hashes followed by
whitespace; removed. -/
def headerMatch (atStart : Bool) (s : List Char) : Option (Nat × List Char) :=
  if atStart then
    let hashes := s.takeWhile fun c => c = '#'
    if 1 ≤ hashes.length ∧ hashes.length ≤ 6 then
      let ws := (s.drop hashes.length).takeWhile isJsSpace
      if ws.isEmpty then none else some (hashes.length + ws.length, [])
    else none
  else none

/-- Markdown link: bracketed text then parenthesised url, replaced by the
text. -/
def linkMatch (s : List Char) : Option (Nat × List Char) :=
  match s with
  | '[' :: r =>
    let txt := r.takeWhile fun c => c ≠ ']'
    if txt.isEmpty then none
    else
      match r.drop txt.length with
      | ']' :: '(' :: r2 =>
          let url := r2.takeWhile fun c => c ≠ ')'
          if url.isEmpty then none
          else
            match r2.drop url.length with
            | ')' :: _ => some (1 + txt.length + 2 + url.length + 1, txt)
            | _ => none
      | _ => none
  | _ => none

/-- Leading list bullet: at a line start, optional whitespace, one of - * +,
then whitespace; removed. -/
def bulletMatch (atStart : Bool) (s : List Char) : Option (Nat × List Char) :=
  if atStart then
    let ws0 := s.takeWhile isJsSpace
    match s.drop ws0.length with
    | c :: r =>
      if c = '-' ∨ c = '*' ∨ c = '+' then
        let ws1 := r.takeWhile isJsSpace
        if ws1.isEmpty then none
        else some (ws0.length + 1 + ws1.length, [])
      else none
    | [] => none
  else none

/-- A single character inside one of the emoji code point ranges; removed. -/
def rangeMatch (lo hi : Nat) (s : List Char) : Option (Nat × List Char) :=
  match s with
  | c :: _ => if lo ≤ c.toNat ∧ c.toNat ≤ hi then some (1, []) else none
  | [] => none

/-- A whitespace run collapsed to a single space. -/
def wsCollapseMatch (s : List Char) : Option (Nat × List Char) :=
  match s with
  | c :: _ =>
      if isJsSpace c then some ((s.takeWhile isJsSpace).length, [' ']) else none
  | [] => none

/-- completions.ts cleanForTTS: the sixteen replacement passes in source
order, then a final trim. -/
def cleanForTTS (s : List Char) : List Char :=
  let p := runPass (fun _ => fenceMatch) s
  let p := runPass (fun _ => encloseMatch [backtick] backtick [backtick]) p
  let p := runPass (fun _ => encloseMatch ['*', '*'] '*' ['*', '*']) p
  let p := runPass (fun _ => encloseMatch ['*'] '*' ['*']) p
  let p := runPass (fun _ => encloseMatch ['_', '_'] '_' ['_', '_']) p
  let p := runPass (fun _ => encloseMatch ['_'] '_' ['_']) p
  let p := runPass headerMatch p
  let p := runPass (fun _ => linkMatch) p
  let p := runPass bulletMatch p
  let p := runPass (fun _ => rangeMatch 0x1f600 0x1f64f) p
  let p := runPass (fun _ => rangeMatch 0x1f300 0x1f5ff) p
  let p := runPass (fun _ => rangeMatch 0x1f680 0x1f6ff) p
  let p := runPass (fun _ => rangeMatch 0x1f1e0 0x1f1ff) p
  let p := runPass (fun _ => rangeMatch 0x2600 0x26ff) p
  let p := runPass (fun _ => rangeMatch 0x2700 0x27bf) p
  let p := runPass (fun _ => wsCollapseMatch) p
  jsTrimList p

/-- Mid-stream state of parseSSEStream: the accumulated full text, the
sentence buffer, and the cleaned sentences handed to onSentence so far. -/
structure SseState where
  fullText : List Char
  sentenceBuffer : List Char
  emitted : List (List Char)
deriving Repr, DecidableEq

/-- Accumulate one non-empty content delta: extend the full text and the
sentence buffer, split completed sentences, clean each and emit the
non-empty ones, keeping the residual tail. -/
def applyDelta (st : SseState) (delta : List Char) : SseState :=
  let fullText := st.fullText ++ delta
  let buf := st.sentenceBuffer ++ delta
  let r := splitSentences buf
  if r.1.isEmpty then
    { st with fullText := fullText, sentenceBuffer := buf }
  else
    { fullText := fullText
      sentenceBuffer := r.2
      emitted := st.emitted ++ ((r.1.map cleanForTTS).filter fun c => !c.isEmpty) }

/-- The for-loop over the lines of one decoded chunk.  A line without the
data prefix is skipped; the DONE payload breaks out of this loop (the rest of
the chunk is dropped, but only this chunk); a parsed, non-empty delta is
accumulated. -/
def processLines (parseDelta : List Char → Option (List Char)) :
    List (List Char) → SseState → SseState
  | [], st => st
  | line :: rest, st =>
    if line.take 6 = "data: ".data then
      let data := jsTrimList (line.drop 6)
      if data = "[DONE]".data then st
      else
        match parseDelta data with
        | some delta =>
            if delta.isEmpty then processLines parseDelta rest st
            else processLines parseDelta rest (applyDelta st delta)
        | none => processLines parseDelta rest st
    else processLines parseDelta rest st

/-- One iteration of the reader loop: decode a chunk, split it on newlines,
and process the lines. -/
def processChunk (parseDelta : List Char → Option (List Char))
    (st : SseState) (chunk : List Char) : SseState :=
  processLines parseDelta (chunk.splitOn '\n') st

/-- completions.ts parseSSEStream over the whole sequence of decoded chunks:
fold the reader loop, then flush the cleaned residual sentence buffer.
Returns the full text and the emitted cleaned sentences. -/
def parseSSEStream (parseDelta : List Char → Option (List Char))
    (chunks : List (List Char)) : List Char × List (List Char) :=
  let st := chunks.foldl (processChunk parseDelta) ⟨[], [], []⟩
  let remaining := cleanForTTS st.sentenceBuffer
  (st.fullText, st.emitted ++ if remaining.isEmpty then [] else [remaining])

/-! ## TTS cache (tts-cache.ts)

The store is a JS Map: iteration in insertion order, with set on an existing
key updating the entry in place (keeping its position) and delete removing
it.  It is modelled as an association list.  Buffers are byte lists; keys are
strings (buildKey produces twelve hex characters, in particular never the
empty string); lastUsed timestamps are the Date.now() values passed to each
operation.  totalBytes is tracked as an integer exactly as the source
adds and subtracts it. -/

structure CacheEntry where
  buffer : List Nat
  lastUsed : Nat
  size : Nat
deriving Repr, DecidableEq

abbrev Store := List (String × CacheEntry)

/-- Map.get. -/
def mapGet (store : Store) (k : String) : Option CacheEntry :=
  (store.find? fun p => p.1 = k).map Prod.snd

/-- Map.set: update in place when the key exists, append otherwise. -/
def mapSet (store : Store) (k : String) (e : CacheEntry) : Store :=
  if store.any fun p => p.1 = k then
    store.map fun p => if p.1 = k then (k, e) else p
  else store ++ [(k, e)]

/-- Map.delete. -/
def mapDelete (store : Store) (k : String) : Store :=
  store.filter fun p => p.1 ≠ k

/-- A phrase label of the cache. -/
inductive PhraseLabel where
  | greetings
  | checkIns
deriving Repr, DecidableEq

/-- The in-memory state of TtsCache that get/set/getRandomGreeting read and
write: the store, the hit and miss counters (mirrored by the cache_hits and
cache_misses metric counters), totalBytes, the per-label key sets (JS Sets,
insertion ordered), the last key returned per label, and the set of keys
whose buffers are baked OGG Opus. -/
structure TtsCacheState where
  store : Store
  hits : Nat
  misses : Nat
  totalBytes : Int
  greetingKeys : List String
  checkInKeys : List String
  lastGreeting : Option String
  lastCheckIn : Option String
  bakedOggKeys : List String
deriving Repr, DecidableEq

def initCache : TtsCacheState :=
  { store := [], hits := 0, misses := 0, totalBytes := 0, greetingKeys := [],
    checkInKeys := [], lastGreeting := none, lastCheckIn := none,
    bakedOggKeys := [] }

def labelKeys (st : TtsCacheState) : PhraseLabel → List String
  | .greetings => st.greetingKeys
  | .checkIns => st.checkInKeys

def lastKey (st : TtsCacheState) : PhraseLabel → Option String
  | .greetings => st.lastGreeting
  | .checkIns => st.lastCheckIn

def setLastKey (st : TtsCacheState) : PhraseLabel → String → TtsCacheState
  | .greetings, k => { st with lastGreeting := some k }
  | .checkIns, k => { st with lastCheckIn := some k }

/-- TtsCache.get: a missing key counts a miss; a present key is touched
(lastUsed set to now), counts a hit, and its buffer is returned. -/
def getOp (key : String) (now : Nat) (st : TtsCacheState) :
    Option (List Nat) × TtsCacheState :=
  match mapGet st.store key with
  | none => (none, { st with misses := st.misses + 1 })
  | some entry =>
      (some entry.buffer,
       { st with
         store := mapSet st.store key { entry with lastUsed := now }
         hits := st.hits + 1 })

/-- The body of the source's oldest-entry scan: iterate the store keeping the
first entry whose lastUsed is strictly below the best so far; the initial
best is the empty string with time Infinity (modelled by none). -/
def findOldestAux : Store → String → Option Nat → String
  | [], best, _ => best
  | (k, v) :: rest, best, bestTime =>
      match bestTime with
      | none => findOldestAux rest k (some v.lastUsed)
      | some t =>
          if v.lastUsed < t then findOldestAux rest k (some v.lastUsed)
          else findOldestAux rest best (some t)

def findOldest (store : Store) : String :=
  findOldestAux store "" none

/-- One iteration of the eviction while-loop body: find the oldest key, break
when it is the falsy empty string, otherwise remove it from the store,
subtract its size, and drop it from every label key set.  The none result is
the break. -/
def evictStep (st : TtsCacheState) : Option TtsCacheState :=
  let oldestKey := findOldest st.store
  if oldestKey = "" then none
  else
    match mapGet st.store oldestKey with
    | none => none
    | some evicted =>
        some { st with
          totalBytes := st.totalBytes - evicted.size
          store := mapDelete st.store oldestKey
          greetingKeys := st.greetingKeys.filter fun k => k ≠ oldestKey
          checkInKeys := st.checkInKeys.filter fun k => k ≠ oldestKey }

/-- The eviction while-loop: while totalBytes exceeds the budget and the
store is non-empty, evict (or break).  The fuel passed by setOp is the store
length, which bounds the number of loop iterations. -/
def evictLoop : Nat → Int → TtsCacheState → TtsCacheState
  | 0, _, st => st
  | fuel + 1, maxBytes, st =>
      if st.totalBytes > maxBytes ∧ 0 < st.store.length then
        match evictStep st with
        | none => st
        | some next => evictLoop fuel maxBytes next
      else st

/-- The insertion phase of TtsCache.set, before eviction: subtract the size
of an existing entry under the same key, store the new entry with lastUsed
now, and add its size. -/
def insertPhase (key : String) (buffer : List Nat) (now : Nat)
    (st : TtsCacheState) : TtsCacheState :=
  let size := buffer.length
  let st1 :=
    match mapGet st.store key with
    | some existing => { st with totalBytes := st.totalBytes - existing.size }
    | none => st
  { st1 with
    store := mapSet st1.store key ⟨buffer, now, size⟩
    totalBytes := st1.totalBytes + size }

/-- TtsCache.set: insert, then evict least-recently-used entries until the
byte budget maxSizeMb * 1024 * 1024 is respected (or the store is empty). -/
def setOp (key : String) (buffer : List Nat) (now : Nat) (maxSizeMb : Nat)
    (st : TtsCacheState) : TtsCacheState :=
  let st1 := insertPhase key buffer now st
  evictLoop st1.store.length ((maxSizeMb : Int) * 1024 * 1024) st1

/-- TtsCache.registerPhraseKey: add the key to the label's set (JS Set add:
append if absent). -/
def registerPhraseKey (key : String) (label : PhraseLabel)
    (st : TtsCacheState) : TtsCacheState :=
  match label with
  | .greetings =>
      if st.greetingKeys.contains key then st
      else { st with greetingKeys := st.greetingKeys ++ [key] }
  | .checkIns =>
      if st.checkInKeys.contains key then st
      else { st with checkInKeys := st.checkInKeys ++ [key] }

/-- The keys of the label's set that currently have a live store entry, in
set iteration order (the available list of getRandomGreeting). -/
def availableKeys (st : TtsCacheState) (label : PhraseLabel) : List String :=
  (labelKeys st label).filter fun k => (mapGet st.store k).isSome

/-- The candidate list of getRandomGreeting: the available keys, excluding
the last returned key when that value is truthy (defined and non-empty) and
an alternative exists. -/
def greetingCandidates (st : TtsCacheState) (label : PhraseLabel) : List String :=
  let available := availableKeys st label
  match lastKey st label with
  | some l =>
      if l ≠ "" ∧ 1 < available.length then available.filter fun k => k ≠ l
      else available
  | none => available

/-- The key picked by getRandomGreeting: none when the label set or the
available list is empty; otherwise the candidate at the random index.  The
oracle r models Math.floor(Math.random() * candidates.length); its reduction
modulo the candidate count ranges over exactly the indices the source can
produce. -/
def chosenGreetingKey (st : TtsCacheState) (label : PhraseLabel) (r : Nat) :
    Option String :=
  if (labelKeys st label).length = 0 then none
  else
    let candidates := greetingCandidates st label
    if (availableKeys st label).length = 0 then none
    else some (candidates.getD (r % candidates.length) "")

/-- TtsCache.getRandomGreeting: pick a candidate, record it as the label's
last key, then look it up, touch lastUsed, count a hit, and return the buffer
with its baked flag. -/
def getRandomGreetingOp (label : PhraseLabel) (r : Nat) (now : Nat)
    (st : TtsCacheState) : Option (List Nat × Bool) × TtsCacheState :=
  match chosenGreetingKey st label r with
  | none => (none, st)
  | some chosen =>
      let st1 := setLastKey st label chosen
      match mapGet st1.store chosen with
      | none => (none, st1)
      | some entry =>
          (some (entry.buffer, st1.bakedOggKeys.contains chosen),
           { st1 with
             store := mapSet st1.store chosen { entry with lastUsed := now }
             hits := st1.hits + 1 })

/-- TtsCache.clear. -/
def clearOp (st : TtsCacheState) : TtsCacheState :=
  { st with
    store := [], totalBytes := 0, greetingKeys := [], checkInKeys := [],
    bakedOggKeys := [] }

/-! Derived quantities used to state the LRU claims. -/

def storeKeys (store : Store) : List String :=
  store.map Prod.fst

/-- Sum of the entry sizes of a store. -/
def sumSizes (store : Store) : Int :=
  (store.map fun p => (p.2.size : Int)).sum

/-- Sum of the sizes of the entries last used at time t or later: the total
weight of the entries at least as recently used as time t. -/
def weightAtLeast (store : Store) (t : Nat) : Int :=
  ((store.filter fun p => t ≤ p.2.lastUsed).map fun p => (p.2.size : Int)).sum

/-- The invariants the eviction loop relies on, true of every state built by
set operations with non-empty keys at strictly increasing times: keys are
non-empty and distinct, timestamps are distinct, and totalBytes equals the
sum of the entry sizes. -/
structure CacheWF (st : TtsCacheState) : Prop where
  keysNonempty : ∀ p ∈ st.store, p.1 ≠ ""
  keysNodup : (storeKeys st.store).Nodup
  timesNodup : (st.store.map fun p => p.2.lastUsed).Nodup
  sumInv : st.totalBytes = sumSizes st.store

/-! Association-list lemmas for the JS Map model. -/

theorem mapSet_cons_ne {p : String × CacheEntry} {rest : Store} {k : String}
    {e : CacheEntry} (h : p.1 ≠ k) :
    mapSet (p :: rest) k e = p :: mapSet rest k e := by
  unfold mapSet
  by_cases hany : rest.any fun q => q.1 = k
  · rw [if_pos, if_pos hany]
    · simp [h]
    · simp only [List.any_cons, hany, Bool.or_true]
  · rw [if_neg, if_neg hany]
    · simp
    · simp only [List.any_cons, hany, Bool.or_false, decide_eq_true_eq]
      exact h

theorem mapSet_cons_eq {p : String × CacheEntry} {rest : Store} {k : String}
    {e : CacheEntry} (h : p.1 = k) (hnk : k ∉ storeKeys rest) :
    mapSet (p :: rest) k e = (k, e) :: rest := by
  unfold mapSet
  rw [if_pos]
  · simp only [List.map_cons, h, if_pos rfl]
    congr 1
    have h2 : ∀ q ∈ rest, (if q.1 = k then (k, e) else q) = q := by
      intro q hq
      rw [if_neg]
      intro hqk
      exact hnk (hqk ▸ List.mem_map_of_mem Prod.fst hq)
    exact (List.map_congr_left h2).trans (by simp)
  · simp [h]

theorem mapSet_not_mem {store : Store} {k : String} {e : CacheEntry}
    (h : k ∉ storeKeys store) : mapSet store k e = store ++ [(k, e)] := by
  unfold mapSet
  rw [if_neg]
  simp only [List.any_eq_true, decide_eq_true_eq, not_exists, not_and]
  intro p hp hpk
  exact h (hpk ▸ List.mem_map_of_mem Prod.fst hp)

theorem mapGet_cons_eq {p : String × CacheEntry} {rest : Store} {k : String}
    (h : p.1 = k) : mapGet (p :: rest) k = some p.2 := by
  unfold mapGet
  rw [List.find?_cons_of_pos]
  · rfl
  · simp [h]

theorem mapGet_cons_ne {p : String × CacheEntry} {rest : Store} {k : String}
    (h : p.1 ≠ k) : mapGet (p :: rest) k = mapGet rest k := by
  unfold mapGet
  rw [List.find?_cons_of_neg]
  simp [h]

theorem mapGet_eq_some_of_mem {store : Store} {k : String} {e : CacheEntry}
    (hmem : (k, e) ∈ store) : ∃ e₂, mapGet store k = some e₂ := by
  induction store with
  | nil => cases hmem
  | cons p rest ih =>
    by_cases h : p.1 = k
    · exact ⟨p.2, mapGet_cons_eq h⟩
    · rcases List.mem_cons.mp hmem with heq | hmem₂
      · have : p.1 = k := by rw [← heq]
        exact absurd this h
      · rw [mapGet_cons_ne h]
        exact ih hmem₂

theorem mapGet_eq_of_mem_nodup {store : Store} {k : String} {e : CacheEntry}
    (hnd : (storeKeys store).Nodup) (hmem : (k, e) ∈ store) :
    mapGet store k = some e := by
  induction store with
  | nil => cases hmem
  | cons p rest ih =>
    have hnd₂ : (storeKeys rest).Nodup := (List.nodup_cons.mp hnd).2
    rcases List.mem_cons.mp hmem with heq | hmem₂
    · subst heq
      exact mapGet_cons_eq rfl
    · by_cases h : p.1 = k
      · exfalso
        have : k ∈ storeKeys rest := List.mem_map_of_mem Prod.fst hmem₂
        exact (List.nodup_cons.mp hnd).1 (h ▸ this)
      · rw [mapGet_cons_ne h]
        exact ih hnd₂ hmem₂

theorem mapGet_isSome_iff {store : Store} {k : String} :
    (mapGet store k).isSome = true ↔ k ∈ storeKeys store := by
  induction store with
  | nil => simp [mapGet, storeKeys]
  | cons p rest ih =>
    by_cases h : p.1 = k
    · simp [mapGet_cons_eq h, storeKeys, h]
    · rw [mapGet_cons_ne h]
      simp only [storeKeys, List.map_cons, List.mem_cons]
      constructor
      · intro hs
        exact Or.inr (by simpa [storeKeys] using ih.mp hs)
      · rintro (heq | hmem)
        · exact absurd heq.symm h
        · exact ih.mpr (by simpa [storeKeys] using hmem)

theorem storeKeys_mapSet_mem {store : Store} {k : String} {e : CacheEntry}
    (h : k ∈ storeKeys store) : storeKeys (mapSet store k e) = storeKeys store := by
  have hany : (store.any fun p => p.1 = k) = true := by
    obtain ⟨p, hp, hpk⟩ := List.mem_map.mp h
    exact List.any_eq_true.mpr ⟨p, hp, by simpa using hpk⟩
  unfold mapSet
  rw [if_pos hany]
  unfold storeKeys
  rw [List.map_map]
  refine List.map_congr_left ?_
  intro q _
  by_cases hq : q.1 = k <;> simp [hq, Function.comp]

theorem mem_mapSet_self {store : Store} {k : String} {e : CacheEntry} :
    (k, e) ∈ mapSet store k e := by
  unfold mapSet
  by_cases h : store.any fun p => p.1 = k
  · rw [if_pos h]
    obtain ⟨p, hp, hpk⟩ := List.any_eq_true.mp h
    have := List.mem_map_of_mem (fun q => if q.1 = k then (k, e) else q) hp
    simpa [decide_eq_true_eq.mp hpk] using this
  · rw [if_neg h]
    simp

theorem mem_mapSet_of_ne {store : Store} {k : String} {e : CacheEntry}
    {p : String × CacheEntry} (h : p.1 ≠ k) :
    p ∈ mapSet store k e ↔ p ∈ store := by
  unfold mapSet
  by_cases hany : store.any fun q => q.1 = k
  · rw [if_pos hany]
    constructor
    · intro hp
      obtain ⟨q, hq, hqe⟩ := List.mem_map.mp hp
      by_cases hqk : q.1 = k
      · rw [if_pos hqk] at hqe
        exact absurd (hqe ▸ rfl) h
      · rw [if_neg hqk] at hqe
        exact hqe ▸ hq
    · intro hp
      have := List.mem_map_of_mem (fun q => if q.1 = k then (k, e) else q) hp
      simpa [if_neg h] using this
  · rw [if_neg hany]
    simp only [List.mem_append, List.mem_singleton]
    constructor
    · rintro (hp | hp)
      · exact hp
      · exact absurd (hp ▸ rfl) h
    · exact Or.inl

/-! The oldest-entry scan: it returns the key of a member entry attaining the
minimum lastUsed (the first such member; with distinct timestamps, the unique
minimum). -/

theorem findOldestAux_spec (store : Store) :
    ∀ (best : String) (t : Nat),
      (findOldestAux store best (some t) = best ∧
        ∀ q ∈ store, t ≤ q.2.lastUsed) ∨
      (∃ p ∈ store, findOldestAux store best (some t) = p.1 ∧
        p.2.lastUsed < t ∧ ∀ q ∈ store, p.2.lastUsed ≤ q.2.lastUsed) := by
  induction store with
  | nil =>
    intro best t
    exact Or.inl ⟨rfl, by intro q hq; cases hq⟩
  | cons kv rest ih =>
    intro best t
    obtain ⟨k, v⟩ := kv
    show (findOldestAux ((k, v) :: rest) best (some t) = best ∧ _) ∨ _
    by_cases hv : v.lastUsed < t
    · have heq : findOldestAux ((k, v) :: rest) best (some t) =
          findOldestAux rest k (some v.lastUsed) := by
        simp [findOldestAux, hv]
      rcases ih k v.lastUsed with ⟨h1, h2⟩ | ⟨p, hp, h1, h2, h3⟩
      · refine Or.inr ⟨(k, v), List.mem_cons_self _ _, heq.trans h1, hv, ?_⟩
        intro q hq
        rcases List.mem_cons.mp hq with rfl | hq₂
        · exact le_refl _
        · exact h2 q hq₂
      · refine Or.inr ⟨p, List.mem_cons_of_mem _ hp, heq.trans h1,
          lt_trans h2 hv, ?_⟩
        intro q hq
        rcases List.mem_cons.mp hq with rfl | hq₂
        · exact le_of_lt h2
        · exact h3 q hq₂
    · have heq : findOldestAux ((k, v) :: rest) best (some t) =
          findOldestAux rest best (some t) := by
        simp [findOldestAux, hv]
      rcases ih best t with ⟨h1, h2⟩ | ⟨p, hp, h1, h2, h3⟩
      · refine Or.inl ⟨heq.trans h1, ?_⟩
        intro q hq
        rcases List.mem_cons.mp hq with rfl | hq₂
        · exact le_of_not_lt hv
        · exact h2 q hq₂
      · refine Or.inr ⟨p, List.mem_cons_of_mem _ hp, heq.trans h1, h2, ?_⟩
        intro q hq
        rcases List.mem_cons.mp hq with rfl | hq₂
        · exact le_trans (le_of_lt h2) (le_of_not_lt hv)
        · exact h3 q hq₂

theorem findOldest_spec {store : Store} (hne : store ≠ []) :
    ∃ p ∈ store, findOldest store = p.1 ∧
      ∀ q ∈ store, p.2.lastUsed ≤ q.2.lastUsed := by
  match store, hne with
  | (k, v) :: rest, _ =>
    have heq : findOldest ((k, v) :: rest) =
        findOldestAux rest k (some v.lastUsed) := rfl
    rcases findOldestAux_spec rest k v.lastUsed with ⟨h1, h2⟩ | ⟨p, hp, h1, h2, h3⟩
    · refine ⟨(k, v), List.mem_cons_self _ _, heq.trans h1, ?_⟩
      intro q hq
      rcases List.mem_cons.mp hq with rfl | hq₂
      · exact le_refl _
      · exact h2 q hq₂
    · refine ⟨p, List.mem_cons_of_mem _ hp, heq.trans h1, ?_⟩
      intro q hq
      rcases List.mem_cons.mp hq with rfl | hq₂
      · exact le_of_lt h2
      · exact h3 q hq₂

/-- With distinct timestamps the scan returns the unique strict minimum. -/
theorem findOldest_strict {store : Store} (hne : store ≠ [])
    (htimes : (store.map fun p => p.2.lastUsed).Nodup) :
    ∃ p ∈ store, findOldest store = p.1 ∧
      ∀ q ∈ store, q ≠ p → p.2.lastUsed < q.2.lastUsed := by
  obtain ⟨p, hp, h1, h2⟩ := findOldest_spec hne
  refine ⟨p, hp, h1, ?_⟩
  intro q hq hqp
  rcases lt_or_eq_of_le (h2 q hq) with h | h
  · exact h
  · exact absurd (List.inj_on_of_nodup_map htimes hq hp h.symm) hqp

/-! Weight and size-sum lemmas. -/

theorem store_key_inj {store : Store} (hnd : (storeKeys store).Nodup)
    {p q : String × CacheEntry} (hp : p ∈ store) (hq : q ∈ store)
    (h : p.1 = q.1) : p = q := by
  unfold storeKeys at hnd
  exact List.inj_on_of_nodup_map hnd hp hq h

theorem weight_le_sumSizes (store : Store) (t : Nat) :
    weightAtLeast store t ≤ sumSizes store := by
  induction store with
  | nil => simp [weightAtLeast, sumSizes]
  | cons p rest ih =>
    unfold weightAtLeast sumSizes at *
    by_cases h : t ≤ p.2.lastUsed
    · rw [List.filter_cons, if_pos (decide_eq_true h)]
      simp only [List.map_cons, List.sum_cons]
      exact add_le_add_left ih _
    · rw [List.filter_cons, if_neg (by simpa using h)]
      simp only [List.map_cons, List.sum_cons]
      have hnn : (0 : Int) ≤ (p.2.size : Int) := Int.ofNat_nonneg _
      exact le_trans ih (by linarith)

theorem weight_eq_sumSizes_of_all (store : Store) (t : Nat)
    (h : ∀ p ∈ store, t ≤ p.2.lastUsed) :
    weightAtLeast store t = sumSizes store := by
  unfold weightAtLeast sumSizes
  rw [List.filter_eq_self.mpr]
  intro a ha
  exact decide_eq_true (h a ha)

theorem sumSizes_filter_ne {store : Store} {m : String × CacheEntry}
    (hnd : (storeKeys store).Nodup) (hmem : m ∈ store) :
    sumSizes (store.filter fun p => p.1 ≠ m.1) =
      sumSizes store - m.2.size := by
  induction store with
  | nil => cases hmem
  | cons p rest ih =>
    have hnotin : p.1 ∉ storeKeys rest := (List.nodup_cons.mp hnd).1
    have hnd₂ : (storeKeys rest).Nodup := (List.nodup_cons.mp hnd).2
    rcases List.mem_cons.mp hmem with heq | hm₂
    · have hrest : rest.filter (fun q => q.1 ≠ m.1) = rest := by
        refine List.filter_eq_self.mpr ?_
        intro q hq
        refine decide_eq_true ?_
        intro hqe
        rw [heq] at hqe
        exact hnotin (hqe ▸ List.mem_map_of_mem Prod.fst hq)
      rw [List.filter_cons, if_neg (by simp [heq]), hrest]
      unfold sumSizes
      rw [heq]
      simp only [List.map_cons, List.sum_cons]
      ring
    · have hpm : p.1 ≠ m.1 := by
        intro he
        exact hnotin (he ▸ List.mem_map_of_mem Prod.fst hm₂)
      rw [List.filter_cons, if_pos (by simpa using hpm)]
      unfold sumSizes at *
      simp only [List.map_cons, List.sum_cons]
      rw [ih hnd₂ hm₂]
      ring

theorem length_filter_lt {l : List α} {p : α → Bool} {a : α} (ha : a ∈ l)
    (hpa : p a = false) : (l.filter p).length < l.length := by
  induction l with
  | nil => cases ha
  | cons b t ih =>
    rcases List.mem_cons.mp ha with rfl | hat
    · rw [List.filter_cons, hpa]
      simp only [Bool.false_eq_true, if_false, List.length_cons]
      exact Nat.lt_succ_of_le (List.length_filter_le p t)
    · rw [List.filter_cons]
      by_cases hb : p b
      · simp only [hb, if_true, List.length_cons]
        exact Nat.succ_lt_succ (ih hat)
      · simp only [hb, Bool.false_eq_true, if_false, List.length_cons]
        exact Nat.lt_succ_of_lt (ih hat)

/-- Removing entries whose key differs from the key of the minimal entry m
does not change the weight above any time beyond m's. -/
theorem weight_filter_ne {store : Store} {m : String × CacheEntry} {t : Nat}
    (hnd : (storeKeys store).Nodup) (hm : m ∈ store)
    (ht : m.2.lastUsed < t) :
    weightAtLeast (store.filter fun q => q.1 ≠ m.1) t =
      weightAtLeast store t := by
  unfold weightAtLeast
  rw [List.filter_filter]
  suffices h : (store.filter fun q =>
      decide (t ≤ q.2.lastUsed) && decide (q.1 ≠ m.1)) =
      store.filter fun q => decide (t ≤ q.2.lastUsed) by rw [h]
  refine List.filter_congr ?_
  intro q hq
  by_cases hqm : q.1 = m.1
  · have hqm' : q = m := store_key_inj hnd hq hm hqm
    subst hqm'
    have h1 : decide (t ≤ q.2.lastUsed) = false :=
      decide_eq_false (not_le.mpr ht)
    rw [h1, Bool.false_and]
  · have h2 : decide (q.1 ≠ m.1) = true := decide_eq_true hqm
    rw [h2, Bool.and_true]

/-! The eviction step and loop. -/

/-- On a well-formed non-empty store the eviction body succeeds and removes
exactly the entry with the strictly smallest lastUsed, adjusting totalBytes
and the label sets and leaving every other field unchanged. -/
theorem evictStep_spec (st : TtsCacheState) (hwf : CacheWF st)
    (hne : st.store ≠ []) :
    ∃ m st', m ∈ st.store ∧ evictStep st = some st' ∧
      st'.store = (st.store.filter fun p => p.1 ≠ m.1) ∧
      st'.totalBytes = st.totalBytes - m.2.size ∧
      st'.hits = st.hits ∧ st'.misses = st.misses ∧
      st'.lastGreeting = st.lastGreeting ∧ st'.lastCheckIn = st.lastCheckIn ∧
      st'.bakedOggKeys = st.bakedOggKeys ∧
      (∀ q ∈ st.store, q ≠ m → m.2.lastUsed < q.2.lastUsed) := by
  obtain ⟨m, hm, hfind, hmin⟩ := findOldest_strict hne hwf.timesNodup
  have hkne : m.1 ≠ "" := hwf.keysNonempty m hm
  have hget : mapGet st.store m.1 = some m.2 :=
    mapGet_eq_of_mem_nodup hwf.keysNodup (by simpa using hm)
  refine ⟨m,
    { st with
      totalBytes := st.totalBytes - m.2.size
      store := st.store.filter fun p => p.1 ≠ m.1
      greetingKeys := st.greetingKeys.filter fun k => k ≠ m.1
      checkInKeys := st.checkInKeys.filter fun k => k ≠ m.1 },
    hm, ?_, rfl, rfl, rfl, rfl, rfl, rfl, rfl, hmin⟩
  unfold evictStep
  rw [hfind, if_neg hkne, hget]
  rfl

/-- The eviction while-loop on a well-formed state with sufficient fuel: the
result is well-formed; its store keeps exactly the entries p for which the
total size of the entries at least as recently used as p fits the budget
(this is the strict-LRU, one-at-a-time eviction outcome: the maximal
most-recently-used prefix that fits); for a non-negative budget the
resulting totalBytes respects the budget; and the counters, last-key fields
and baked-key set are untouched. -/
theorem evictLoop_master (mb : Int) :
    ∀ (fuel : Nat) (st : TtsCacheState), CacheWF st → st.store.length ≤ fuel →
      CacheWF (evictLoop fuel mb st) ∧
      (evictLoop fuel mb st).store =
        st.store.filter (fun p => decide (weightAtLeast st.store p.2.lastUsed ≤ mb)) ∧
      (0 ≤ mb → (evictLoop fuel mb st).totalBytes ≤ mb) ∧
      (evictLoop fuel mb st).hits = st.hits ∧
      (evictLoop fuel mb st).misses = st.misses ∧
      (evictLoop fuel mb st).lastGreeting = st.lastGreeting ∧
      (evictLoop fuel mb st).lastCheckIn = st.lastCheckIn ∧
      (evictLoop fuel mb st).bakedOggKeys = st.bakedOggKeys := by
  intro fuel
  induction fuel with
  | zero =>
    intro st hwf hfuel
    have hstore : st.store = [] := List.length_eq_zero.mp (Nat.le_zero.mp hfuel)
    refine ⟨hwf, ?_, ?_, rfl, rfl, rfl, rfl, rfl⟩
    · show st.store = _
      rw [hstore]
      rfl
    · intro h0
      show st.totalBytes ≤ mb
      rw [hwf.sumInv, hstore]
      exact h0
  | succ fuel ih =>
    intro st hwf hfuel
    by_cases hcond : st.totalBytes > mb ∧ 0 < st.store.length
    · have hne : st.store ≠ [] := by
        intro h
        rw [h] at hcond
        exact absurd hcond.2 (by simp)
      obtain ⟨m, st', hm, hstep, hS, hT, hH, hM, hG, hC, hB, hmin⟩ :=
        evictStep_spec st hwf hne
      have hloop : evictLoop (fuel + 1) mb st = evictLoop fuel mb st' := by
        show (if st.totalBytes > mb ∧ 0 < st.store.length then
            match evictStep st with
            | none => st
            | some next => evictLoop fuel mb next
          else st) = _
        rw [if_pos hcond, hstep]
      have hwf' : CacheWF st' := by
        refine ⟨?_, ?_, ?_, ?_⟩
        · intro p hp
          rw [hS] at hp
          exact hwf.keysNonempty p (List.mem_of_mem_filter hp)
        · rw [hS]
          exact hwf.keysNodup.sublist (List.Sublist.map _ (List.filter_sublist _))
        · rw [hS]
          exact hwf.timesNodup.sublist (List.Sublist.map _ (List.filter_sublist _))
        · rw [hT, hS, hwf.sumInv]
          exact (sumSizes_filter_ne hwf.keysNodup hm).symm
      have hlen : st'.store.length ≤ fuel := by
        rw [hS]
        have : (st.store.filter fun p => p.1 ≠ m.1).length < st.store.length :=
          length_filter_lt hm (by simp)
        omega
      obtain ⟨h1, h2, h3, h4, h5, h6, h7, h8⟩ := ih st' hwf' hlen
      have hweightm : weightAtLeast st.store m.2.lastUsed = st.totalBytes := by
        rw [hwf.sumInv]
        refine weight_eq_sumSizes_of_all _ _ ?_
        intro q hq
        by_cases hqm : q = m
        · rw [hqm]
        · exact le_of_lt (hmin q hq hqm)
      have hstores : st'.store.filter
            (fun p => decide (weightAtLeast st'.store p.2.lastUsed ≤ mb)) =
          st.store.filter
            (fun p => decide (weightAtLeast st.store p.2.lastUsed ≤ mb)) := by
        rw [hS, List.filter_filter]
        refine List.filter_congr ?_
        intro p hp
        by_cases hpm : p.1 = m.1
        · have hpm' : p = m := store_key_inj hwf.keysNodup hp hm hpm
          subst hpm'
          have hr : decide (weightAtLeast st.store p.2.lastUsed ≤ mb) = false := by
            refine decide_eq_false ?_
            rw [hweightm]
            exact not_le.mpr hcond.1
          have hl : decide (p.1 ≠ p.1) = false := by simp
          rw [hr, hl, Bool.and_false]
        · have hpm' : p ≠ m := fun h => hpm (h ▸ rfl)
          have hmp : m.2.lastUsed < p.2.lastUsed := hmin p hp hpm'
          have hwe : weightAtLeast (st.store.filter fun q => q.1 ≠ m.1)
              p.2.lastUsed = weightAtLeast st.store p.2.lastUsed :=
            weight_filter_ne hwf.keysNodup hm hmp
          rw [hwe]
          have hq2 : decide (p.1 ≠ m.1) = true := decide_eq_true hpm
          rw [hq2, Bool.and_true]
      rw [hloop]
      refine ⟨h1, h2.trans hstores, h3, ?_, ?_, ?_, ?_, ?_⟩
      · rw [h4, hH]
      · rw [h5, hM]
      · rw [h6, hG]
      · rw [h7, hC]
      · rw [h8, hB]
    · have hloop : evictLoop (fuel + 1) mb st = st := by
        show (if st.totalBytes > mb ∧ 0 < st.store.length then
            match evictStep st with
            | none => st
            | some next => evictLoop fuel mb next
          else st) = st
        rw [if_neg hcond]
      rw [hloop]
      refine ⟨hwf, ?_, ?_, rfl, rfl, rfl, rfl, rfl⟩
      · rcases not_and_or.mp hcond with h | h
        · symm
          refine List.filter_eq_self.mpr ?_
          intro p hp
          refine decide_eq_true ?_
          calc weightAtLeast st.store p.2.lastUsed
              ≤ sumSizes st.store := weight_le_sumSizes _ _
            _ = st.totalBytes := hwf.sumInv.symm
            _ ≤ mb := not_lt.mp h
        · have hstore : st.store = [] := by
            simp only [not_lt, Nat.le_zero] at h
            exact List.length_eq_zero.mp h
          rw [hstore]
          rfl
      · intro h0
        rcases not_and_or.mp hcond with h | h
        · exact not_lt.mp h
        · have hstore : st.store = [] := by
            simp only [not_lt, Nat.le_zero] at h
            exact List.length_eq_zero.mp h
          rw [hwf.sumInv, hstore]
          exact h0

/-! The insertion phase and the complete set operation. -/

theorem mem_mapSet_key_eq {store : Store} {k : String} {e : CacheEntry}
    {p : String × CacheEntry} (hp : p ∈ mapSet store k e) (hk : p.1 = k) :
    p = (k, e) := by
  unfold mapSet at hp
  by_cases hany : store.any fun q => q.1 = k
  · rw [if_pos hany] at hp
    obtain ⟨q, _, hqe⟩ := List.mem_map.mp hp
    by_cases hqk : q.1 = k
    · rw [if_pos hqk] at hqe
      exact hqe.symm
    · rw [if_neg hqk] at hqe
      exact absurd (hqe ▸ hk) hqk
  · rw [if_neg hany] at hp
    rcases List.mem_append.mp hp with hmem | hmem
    · exfalso
      have : (store.any fun q => q.1 = k) = true :=
        List.any_eq_true.mpr ⟨p, hmem, by simpa using hk⟩
      exact hany this
    · simpa using hmem

theorem mapGet_mem {store : Store} {k : String} {e : CacheEntry}
    (h : mapGet store k = some e) : (k, e) ∈ store := by
  unfold mapGet at h
  cases hf : store.find? fun p => p.1 = k with
  | none => rw [hf] at h; cases h
  | some q =>
      rw [hf] at h
      have hq : q ∈ store := List.mem_of_find?_eq_some hf
      have hqk : q.1 = k := by simpa using List.find?_some hf
      have hqe : q.2 = e := by simpa using h
      have : q = (k, e) := Prod.ext hqk hqe
      exact this ▸ hq

theorem sumSizes_mapSet_existing {store : Store} {k : String}
    {ex e : CacheEntry} (hnd : (storeKeys store).Nodup)
    (hmem : (k, ex) ∈ store) :
    sumSizes (mapSet store k e) = sumSizes store - ex.size + e.size := by
  induction store with
  | nil => cases hmem
  | cons p rest ih =>
    have hnotin : p.1 ∉ storeKeys rest := (List.nodup_cons.mp hnd).1
    have hnd₂ : (storeKeys rest).Nodup := (List.nodup_cons.mp hnd).2
    rcases List.mem_cons.mp hmem with heq | hm₂
    · have hpk : p.1 = k := by rw [← heq]
      have hpe : p.2 = ex := by rw [← heq]
      rw [mapSet_cons_eq hpk (hpk ▸ hnotin)]
      unfold sumSizes
      simp only [List.map_cons, List.sum_cons]
      rw [← hpe]
      ring
    · have hpk : p.1 ≠ k := by
        intro he
        have hkr : k ∈ storeKeys rest := List.mem_map_of_mem Prod.fst hm₂
        exact hnotin (he ▸ hkr)
      rw [mapSet_cons_ne hpk]
      unfold sumSizes at *
      simp only [List.map_cons, List.sum_cons]
      rw [ih hnd₂ hm₂]
      ring

theorem sumSizes_mapSet_new {store : Store} {k : String} {e : CacheEntry}
    (h : k ∉ storeKeys store) :
    sumSizes (mapSet store k e) = sumSizes store + e.size := by
  rw [mapSet_not_mem h]
  unfold sumSizes
  rw [List.map_append, List.sum_append]
  rfl

theorem times_nodup_mapSet {store : Store} {k : String} {e : CacheEntry}
    (hnd : (storeKeys store).Nodup)
    (htn : (store.map fun p => p.2.lastUsed).Nodup)
    (hlt : ∀ p ∈ store, p.2.lastUsed < e.lastUsed) :
    ((mapSet store k e).map fun p => p.2.lastUsed).Nodup := by
  by_cases hmem : k ∈ storeKeys store
  · induction store with
    | nil => cases hmem
    | cons p rest ih =>
      have hnotin : p.1 ∉ storeKeys rest := (List.nodup_cons.mp hnd).1
      have hnd₂ : (storeKeys rest).Nodup := (List.nodup_cons.mp hnd).2
      have hlt₂ : ∀ q ∈ rest, q.2.lastUsed < e.lastUsed := fun q hq =>
        hlt q (List.mem_cons_of_mem _ hq)
      by_cases hpk : p.1 = k
      · rw [mapSet_cons_eq hpk (hpk ▸ hnotin)]
        simp only [List.map_cons]
        refine List.nodup_cons.mpr ⟨?_, (List.nodup_cons.mp htn).2⟩
        intro hin
        obtain ⟨q, hq, hqt⟩ := List.mem_map.mp hin
        exact absurd hqt (ne_of_lt (hlt₂ q hq))
      · rw [mapSet_cons_ne hpk]
        simp only [List.map_cons]
        have hkrest : k ∈ storeKeys rest := by
          rcases List.mem_cons.mp hmem with heq | h₂
          · exact absurd heq.symm hpk
          · simpa [storeKeys] using h₂
        refine List.nodup_cons.mpr
          ⟨?_, ih hnd₂ (List.nodup_cons.mp htn).2 hlt₂ hkrest⟩
        intro hin
        obtain ⟨q, hq, hqt⟩ := List.mem_map.mp hin
        by_cases hqk : q.1 = k
        · have hqke : q = (k, e) := mem_mapSet_key_eq hq hqk
          rw [hqke] at hqt
          exact absurd hqt.symm
            (ne_of_lt (hlt p (List.mem_cons_self _ _)))
        · have hq₂ : q ∈ rest := (mem_mapSet_of_ne hqk).mp hq
          have hne₃ : p.2.lastUsed ≠ q.2.lastUsed := by
            intro he
            have hqmem : q.2.lastUsed ∈ rest.map fun p => p.2.lastUsed :=
              List.mem_map_of_mem _ hq₂
            rw [← he] at hqmem
            exact (List.nodup_cons.mp htn).1 hqmem
          exact absurd hqt.symm hne₃
  · rw [mapSet_not_mem hmem, List.map_append]
    simp only [List.map_cons, List.map_nil]
    rw [List.nodup_append]
    refine ⟨htn, List.nodup_singleton _, ?_⟩
    intro t ht he
    obtain ⟨q, hq, hqt⟩ := List.mem_map.mp ht
    simp only [List.mem_singleton] at he
    exact absurd (hqt.trans he) (ne_of_lt (hlt q hq))

/-- The new entry written by the insertion phase. -/
def newEntry (buffer : List Nat) (now : Nat) : CacheEntry :=
  ⟨buffer, now, buffer.length⟩

theorem insertPhase_spec (st : TtsCacheState) (key : String) (B : List Nat)
    (now : Nat) (hwf : CacheWF st) (hk : key ≠ "")
    (hlt : ∀ p ∈ st.store, p.2.lastUsed < now) :
    CacheWF (insertPhase key B now st) ∧
    (key, newEntry B now) ∈ (insertPhase key B now st).store ∧
    (∀ p ∈ (insertPhase key B now st).store,
      p = (key, newEntry B now) ∨ (p ∈ st.store ∧ p.2.lastUsed < now)) ∧
    (insertPhase key B now st).hits = st.hits ∧
    (insertPhase key B now st).misses = st.misses ∧
    (insertPhase key B now st).lastGreeting = st.lastGreeting ∧
    (insertPhase key B now st).lastCheckIn = st.lastCheckIn ∧
    (insertPhase key B now st).bakedOggKeys = st.bakedOggKeys := by
  have hstore : (insertPhase key B now st).store =
      mapSet st.store key (newEntry B now) := by
    unfold insertPhase
    cases mapGet st.store key <;> rfl
  have hmemsplit : ∀ p ∈ (insertPhase key B now st).store,
      p = (key, newEntry B now) ∨ (p ∈ st.store ∧ p.2.lastUsed < now) := by
    intro p hp
    rw [hstore] at hp
    by_cases hpk : p.1 = key
    · exact Or.inl (mem_mapSet_key_eq hp hpk)
    · have hmem := (mem_mapSet_of_ne hpk).mp hp
      exact Or.inr ⟨hmem, hlt p hmem⟩
  have hframe : (insertPhase key B now st).hits = st.hits ∧
      (insertPhase key B now st).misses = st.misses ∧
      (insertPhase key B now st).lastGreeting = st.lastGreeting ∧
      (insertPhase key B now st).lastCheckIn = st.lastCheckIn ∧
      (insertPhase key B now st).bakedOggKeys = st.bakedOggKeys := by
    unfold insertPhase
    cases mapGet st.store key <;> exact ⟨rfl, rfl, rfl, rfl, rfl⟩
  refine ⟨⟨?_, ?_, ?_, ?_⟩, ?_, hmemsplit, hframe.1, hframe.2.1, hframe.2.2.1,
    hframe.2.2.2.1, hframe.2.2.2.2⟩
  · intro p hp
    rcases hmemsplit p hp with heq | ⟨hmem, _⟩
    · rw [heq]
      exact hk
    · exact hwf.keysNonempty p hmem
  · rw [hstore]
    by_cases hmem : key ∈ storeKeys st.store
    · rw [storeKeys_mapSet_mem hmem]
      exact hwf.keysNodup
    · unfold storeKeys
      rw [mapSet_not_mem hmem, List.map_append]
      rw [List.nodup_append]
      refine ⟨hwf.keysNodup, List.nodup_singleton _, ?_⟩
      intro a ha he
      simp only [List.map_cons, List.map_nil, List.mem_singleton] at he
      exact hmem (he ▸ ha)
  · rw [hstore]
    exact times_nodup_mapSet hwf.keysNodup hwf.timesNodup hlt
  · show (insertPhase key B now st).totalBytes =
      sumSizes (insertPhase key B now st).store
    rw [hstore]
    unfold insertPhase
    cases hg : mapGet st.store key with
    | some ex =>
        have hmem : (key, ex) ∈ st.store := mapGet_mem hg
        have := @sumSizes_mapSet_existing st.store key ex (newEntry B now)
          hwf.keysNodup hmem
        show st.totalBytes - (ex.size : Int) + (B.length : Int) = _
        rw [this, hwf.sumInv]
        show _ = sumSizes st.store - ex.size + (newEntry B now).size
        unfold newEntry
        ring
    | none =>
        have hmem : key ∉ storeKeys st.store := by
          intro h
          have := mapGet_isSome_iff.mpr h
          rw [hg] at this
          cases this
        have := @sumSizes_mapSet_new st.store key (newEntry B now) hmem
        show st.totalBytes + (B.length : Int) = _
        rw [this, hwf.sumInv]
        rfl
  · rw [hstore]
    exact mem_mapSet_self

/-- TtsCache.set on a well-formed state, with a non-empty key at a fresh
timestamp: the result is well-formed, respects the byte budget, retains
exactly the entries of the inserted store whose at-least-as-recent total
weight fits the budget, and leaves the counters, last-key fields and
baked-key set unchanged; every retained timestamp is at most now. -/
theorem setOp_master (st : TtsCacheState) (key : String) (B : List Nat)
    (now : Nat) (mb : Nat) (hwf : CacheWF st) (hk : key ≠ "")
    (hlt : ∀ p ∈ st.store, p.2.lastUsed < now) :
    CacheWF (setOp key B now mb st) ∧
    (setOp key B now mb st).store =
      (insertPhase key B now st).store.filter
        (fun p => decide (weightAtLeast (insertPhase key B now st).store
          p.2.lastUsed ≤ (mb : Int) * 1024 * 1024)) ∧
    (setOp key B now mb st).totalBytes ≤ (mb : Int) * 1024 * 1024 ∧
    (setOp key B now mb st).hits = st.hits ∧
    (setOp key B now mb st).misses = st.misses ∧
    (setOp key B now mb st).lastGreeting = st.lastGreeting ∧
    (setOp key B now mb st).lastCheckIn = st.lastCheckIn ∧
    (setOp key B now mb st).bakedOggKeys = st.bakedOggKeys ∧
    (∀ p ∈ (setOp key B now mb st).store, p.2.lastUsed ≤ now) := by
  obtain ⟨hwf₁, hmem₁, hsplit₁, hh₁, hm₁, hg₁, hc₁, hb₁⟩ :=
    insertPhase_spec st key B now hwf hk hlt
  have hnn : (0 : Int) ≤ (mb : Int) * 1024 * 1024 := by positivity
  obtain ⟨h1, h2, h3, h4, h5, h6, h7, h8⟩ :=
    evictLoop_master ((mb : Int) * 1024 * 1024)
      (insertPhase key B now st).store.length (insertPhase key B now st)
      hwf₁ (le_refl _)
  have hset : setOp key B now mb st =
      evictLoop (insertPhase key B now st).store.length
        ((mb : Int) * 1024 * 1024) (insertPhase key B now st) := rfl
  rw [hset]
  refine ⟨h1, h2, h3 hnn, h4.trans hh₁, h5.trans hm₁, h6.trans hg₁,
    h7.trans hc₁, h8.trans hb₁, ?_⟩
  intro p hp
  rw [h2] at hp
  have hp₂ := List.mem_of_mem_filter hp
  rcases hsplit₁ p hp₂ with heq | ⟨_, hlt₂⟩
  · rw [heq]
    exact le_refl now
  · exact le_of_lt hlt₂

/-- A unique element satisfying the predicate makes the filter a
singleton. -/
theorem filter_eq_singleton_of_unique {l : List α} {a : α} {p : α → Bool}
    (hnd : l.Nodup) (hmem : a ∈ l) (hpa : p a = true)
    (hothers : ∀ b ∈ l, b ≠ a → p b = false) : l.filter p = [a] := by
  induction l with
  | nil => cases hmem
  | cons b t ih =>
    have hbt : b ∉ t := (List.nodup_cons.mp hnd).1
    have hnd₂ := (List.nodup_cons.mp hnd).2
    rcases List.mem_cons.mp hmem with heq | hat
    · subst heq
      rw [List.filter_cons, if_pos hpa]
      have : t.filter p = [] := by
        refine List.filter_eq_nil_iff.mpr ?_
        intro x hx
        have hxa : x ≠ a := fun he => hbt (he ▸ hx)
        simp [hothers x (List.mem_cons_of_mem _ hx) hxa]
      rw [this]
    · have hba : b ≠ a := fun he => hbt (he ▸ hat)
      rw [List.filter_cons, if_neg (by
        simp [hothers b (List.mem_cons_self _ _) hba])]
      exact ih hnd₂ hat (fun x hx => hothers x (List.mem_cons_of_mem _ hx))

/-! # Claim theorems (first group) -/

/-- Claim C6: after reportUserSpeech all four heartbeat firing guards are
clear; after reportBotSpeech, botStallFired is clear and the other three
guards keep the values they had before the call. -/
theorem heartbeat_guard_reset (s : HeartbeatState) (now : Nat) :
    (reportUserSpeech now s).silencePromptFired = false ∧
    (reportUserSpeech now s).botStallFired = false ∧
    (reportUserSpeech now s).graceAnnounced = false ∧
    (reportUserSpeech now s).idleTimeoutFired = false ∧
    (reportBotSpeech now s).botStallFired = false ∧
    (reportBotSpeech now s).silencePromptFired = s.silencePromptFired ∧
    (reportBotSpeech now s).graceAnnounced = s.graceAnnounced ∧
    (reportBotSpeech now s).idleTimeoutFired = s.idleTimeoutFired := by
  refine ⟨rfl, rfl, rfl, rfl, rfl, rfl, rfl, rfl⟩

/-- Claim C10: interrupt empties both FIFOs, signals the abort token of the
current stream when one is present (and drops it), resets playingAudio,
e2eRecorded and processing, and leaves lastTranscript exactly as it was. -/
theorem interrupt_frame_effect (st : PipelineState) :
    (interrupt st).utteranceQueue = [] ∧
    (interrupt st).audioQueue = [] ∧
    (interrupt st).playingAudio = false ∧
    (interrupt st).e2eRecorded = false ∧
    (interrupt st).processing = false ∧
    (interrupt st).abortSignalled = (st.abortSignalled || st.currentAbortPresent) ∧
    (interrupt st).currentAbortPresent = false ∧
    (interrupt st).lastTranscript = st.lastTranscript := by
  refine ⟨rfl, rfl, rfl, rfl, rfl, rfl, rfl, rfl⟩

/-- Claim C9, counterexample: with minSpeechMs = 0 and an empty PCM buffer the
minimum-byte condition of the claim does not hold (0 bytes is not fewer than a
0-byte minimum) and the endpoint succeeds, yet transcribe returns the empty
string rather than the endpoint text trimmed: the code has an extra
empty-buffer rejection the claim does not mention. -/
theorem transcribe_claim_counterexample :
    (transcribe 0 0 (some "hi")).text = "" ∧
    ¬ ((0 : ℚ) < 0 / 1000 * 192000) ∧
    jsTrim "hi" = "hi" ∧ ("hi" : String) ≠ "" := by
  refine ⟨rfl, by norm_num, by decide, by decide⟩

/-- Claim C9 as amended: transcribe returns the empty string (and never
raises, being total) whenever the buffer is empty, or shorter than
minSpeechMs/1000 * 48000 * 4 bytes, or the endpoint call fails; the failure
branch logs an error; otherwise it returns the endpoint text, trimmed. -/
theorem transcribe_amended (pcmLen : Nat) (minSpeechMs : ℚ) (endpoint : Option String) :
    (pcmLen = 0 ∨ (pcmLen : ℚ) < minSpeechMs / 1000 * 192000 ∨ endpoint = none →
      (transcribe pcmLen minSpeechMs endpoint).text = "") ∧
    (pcmLen ≠ 0 → ¬ ((pcmLen : ℚ) < minSpeechMs / 1000 * 192000) → endpoint = none →
      (transcribe pcmLen minSpeechMs endpoint).loggedError = true) ∧
    (∀ t, pcmLen ≠ 0 → ¬ ((pcmLen : ℚ) < minSpeechMs / 1000 * 192000) →
      endpoint = some t →
      (transcribe pcmLen minSpeechMs endpoint).text = jsTrim t) := by
  unfold transcribe
  refine ⟨?_, ?_, ?_⟩
  · rintro (h | h | h)
    · simp [h]
    · by_cases h0 : pcmLen = 0
      · simp [h0]
      · simp [h0, h]
    · by_cases h0 : pcmLen = 0
      · simp [h0]
      · by_cases hs : (pcmLen : ℚ) < minSpeechMs / 1000 * 192000
        · simp [h0, hs]
        · simp [h0, hs, h]
  · intro h0 hs h
    simp [h0, hs, h]
  · intro t h0 hs h
    simp [h0, hs, h]

/-- Witness for transcribe_amended at concrete inputs: a 10-byte buffer is
below the default 200 ms gate (38400 bytes) and yields the empty string; a
large enough buffer with a succeeding endpoint yields the trimmed text. -/
theorem transcribe_amended_witness :
    (transcribe 10 200 (some " hi ")).text = "" ∧
    (transcribe 40000 200 (some " hi ")).text = jsTrim " hi " := by
  constructor
  · exact (transcribe_amended 10 200 (some " hi ")).1 (Or.inr (Or.inl (by norm_num)))
  · exact (transcribe_amended 40000 200 (some " hi ")).2.2 " hi "
      (by norm_num) (by norm_num) rfl

/-- Claim C2, counterexample: in an episode whose first two attempts fail and
whose third reaches Ready, voice.reconnect.count is incremented exactly once
(the increment sits before the attempt loop), not once per attempt: the
counter delta is 1 while 3 attempts were made, contradicting the claimed
count of 3. -/
theorem reconnect_count_counterexample :
    (doReconnect 5 1000 30000
        (fun k => if k < 3 then .fail else .ok)).attemptsMade = 3 ∧
    (doReconnect 5 1000 30000
        (fun k => if k < 3 then .fail else .ok)).countDelta = 1 ∧
    (doReconnect 5 1000 30000
        (fun k => if k < 3 then .fail else .ok)).successDelta = 1 ∧
    (1 : Nat) ≠ 3 := by
  refine ⟨by decide, by decide, by decide, by decide⟩

/-- Claim C2 as amended: a reconnect episode increments voice.reconnect.count
by exactly one regardless of how many attempts are made; an episode whose
first two attempts fail and whose third reaches Ready makes exactly 3
attempts, increments voice.reconnect.success by one, and sleeps the clamped
exponential backoff delays for attempts 1, 2, 3. -/
theorem reconnect_count_amended (maxAttempts backoff maxBackoff : Nat)
    (results : Nat → AttemptResult) :
    (doReconnect maxAttempts backoff maxBackoff results).countDelta = 1 ∧
    (results 1 = .fail → results 2 = .fail → results 3 = .ok → 3 ≤ maxAttempts →
      (doReconnect maxAttempts backoff maxBackoff results).attemptsMade = 3 ∧
      (doReconnect maxAttempts backoff maxBackoff results).successDelta = 1 ∧
      (doReconnect maxAttempts backoff maxBackoff results).delays =
        [min backoff maxBackoff, min (backoff * 2) maxBackoff,
         min (backoff * 4) maxBackoff]) := by
  constructor
  · have h : ∀ rem att, (reconnectFrom backoff maxBackoff results att rem).countDelta = 1 := by
      intro rem
      induction rem with
      | zero => intro att; rfl
      | succ n ih =>
        intro att
        simp only [reconnectFrom]
        cases results att <;> simp [ih]
    exact h maxAttempts 1
  · intro h1 h2 h3 hle
    obtain ⟨m, hm⟩ : ∃ m, maxAttempts = m + 3 := ⟨maxAttempts - 3, by omega⟩
    subst hm
    have e1 : doReconnect (m + 3) backoff maxBackoff results =
        { countDelta := 1, successDelta := 1, attemptsMade := 3,
          delays := [min backoff maxBackoff, min (backoff * 2) maxBackoff,
                     min (backoff * 4) maxBackoff], toreDown := false } := by
      show reconnectFrom backoff maxBackoff results 1 (((m + 1) + 1) + 1) = _
      simp [reconnectFrom, h1, h2, h3]
    rw [e1]
    exact ⟨rfl, rfl, rfl⟩

/-- Witness for reconnect_count_amended: five allowed attempts, the first two
failing and the third succeeding, with 1000 ms base backoff clamped at
30000 ms. -/
theorem reconnect_count_amended_witness :
    (doReconnect 5 1000 30000 (fun k => if k ≤ 2 then .fail else .ok)).countDelta = 1 ∧
    (doReconnect 5 1000 30000 (fun k => if k ≤ 2 then .fail else .ok)).attemptsMade = 3 ∧
    (doReconnect 5 1000 30000 (fun k => if k ≤ 2 then .fail else .ok)).successDelta = 1 ∧
    (doReconnect 5 1000 30000 (fun k => if k ≤ 2 then .fail else .ok)).delays =
      [1000, 2000, 4000] := by
  have h := reconnect_count_amended 5 1000 30000 (fun k => if k ≤ 2 then .fail else .ok)
  have h2 := h.2 (by decide) (by decide) (by decide) (by omega)
  exact ⟨h.1, h2.1, h2.2.1, by simpa using h2.2.2⟩

/-- Claim C5: with the noise filter enabled, a non-empty transcript with at
most 2 words matching the filler-word pattern or the all-non-word pattern is
rejected: no chunks, no chat or TTS increments, drain continues; any other
non-empty transcript proceeds to the streaming chat stage. -/
theorem noise_filter_rejects (cfgNoise : Option Bool) (t : String)
    (chatStage : String → UtteranceEffects)
    (henabled : cfgNoise ≠ some false) (hne : t ≠ "") :
    (jsSplitWsCount t ≤ 2 ∧ (matchesFiller t = true ∨ matchesNonWord t = true) →
      utteranceDecision cfgNoise t = .filteredNoise ∧
      processTranscriptStage cfgNoise t chatStage = filteredEffects ∧
      (processTranscriptStage cfgNoise t chatStage).chunks = [] ∧
      (processTranscriptStage cfgNoise t chatStage).llmRequests = 0 ∧
      (processTranscriptStage cfgNoise t chatStage).ttsRequests = 0 ∧
      (processTranscriptStage cfgNoise t chatStage).continuesNext = true) ∧
    (¬ (jsSplitWsCount t ≤ 2 ∧ (matchesFiller t = true ∨ matchesNonWord t = true)) →
      utteranceDecision cfgNoise t = .proceed ∧
      processTranscriptStage cfgNoise t chatStage = chatStage t) := by
  have hnoise : ∀ h : isNoise t = true,
      utteranceDecision cfgNoise t = .filteredNoise := by
    intro h
    unfold utteranceDecision
    rw [if_neg hne, if_pos ⟨henabled, h⟩]
  constructor
  · intro ⟨h1, h2⟩
    have hn : isNoise t = true := by
      unfold isNoise
      simp only [Bool.and_eq_true, Bool.or_eq_true, decide_eq_true_eq]
      exact ⟨by simpa using h1, h2⟩
    have hd := hnoise hn
    refine ⟨hd, ?_, ?_, ?_, ?_, ?_⟩ <;>
      simp [processTranscriptStage, hd, filteredEffects]
  · intro h
    have hn : ¬ isNoise t = true := by
      unfold isNoise
      simp only [Bool.and_eq_true, Bool.or_eq_true, decide_eq_true_eq]
      intro ⟨h1, h2⟩
      exact h ⟨by simpa using h1, h2⟩
    have hd : utteranceDecision cfgNoise t = .proceed := by
      unfold utteranceDecision
      rw [if_neg hne, if_neg (by intro ⟨_, hc⟩; exact hn hc)]
    exact ⟨hd, by simp [processTranscriptStage, hd]⟩

/-- Witness for noise_filter_rejects: the transcript Um. (one word, filler
pattern) is filtered with no effects; the transcript hello there proceeds to
the chat stage. -/
theorem noise_filter_rejects_witness :
    processTranscriptStage none "Um."
      (fun _ => ⟨1, 2, [([3], .arbitrary)], false⟩) = filteredEffects ∧
    processTranscriptStage none "hello there"
      (fun s => ⟨1, 2, [([s.length], .arbitrary)], false⟩) =
      ⟨1, 2, [([11], .arbitrary)], false⟩ := by
  constructor
  · exact ((noise_filter_rejects none "Um." _ (by decide) (by decide)).1
      ⟨by decide, Or.inl (by decide)⟩).2.1
  · have h := ((noise_filter_rejects none "hello there"
        (fun s => ⟨1, 2, [([s.length], .arbitrary)], false⟩) (by decide)
        (by decide)).2 (by decide)).2
    simpa using h

/-- Claim C1, counterexample: two sentences, the first a cache miss and the
second a cache hit; the hit is pushed synchronously at arrival, before the
miss's TTS call resolves, so the audio FIFO receives the chunks as
sentence 1 then sentence 0 — not in production order. -/
theorem sentence_order_counterexample :
    ValidTrace 2 (fun i => decide (i = 1))
      [.arrive 0, .arrive 1, .ttsComplete 0] ∧
    chunkPushes (fun i => decide (i = 1))
      [.arrive 0, .arrive 1, .ttsComplete 0] = [1, 0] ∧
    ([1, 0] : List Nat) ≠ List.range 2 := by
  refine ⟨⟨by decide, by decide, by decide⟩, by decide, by decide⟩

/-- Pushes split: the FIFO content is a permutation of the cache-hit arrivals
(in arrival order) followed by the TTS completions (in completion order). -/
theorem chunkPushes_perm_split (hit : Nat → Bool) (tr : List SseEvent) :
    (chunkPushes hit tr).Perm
      ((arriveEvents tr).filter hit ++ completeEvents tr) := by
  induction tr with
  | nil => simp [chunkPushes, arriveEvents, completeEvents]
  | cons e tr ih =>
    cases e with
    | arrive i =>
      by_cases h : hit i
      · simpa [chunkPushes, arriveEvents, completeEvents, h] using ih.cons i
      · simpa [chunkPushes, arriveEvents, completeEvents, h] using ih
    | ttsComplete i =>
      have h1 : chunkPushes hit (SseEvent.ttsComplete i :: tr) =
          i :: chunkPushes hit tr := by simp [chunkPushes]
      have h2 : arriveEvents (SseEvent.ttsComplete i :: tr) = arriveEvents tr := by
        simp [arriveEvents]
      have h3 : completeEvents (SseEvent.ttsComplete i :: tr) =
          i :: completeEvents tr := by simp [completeEvents]
      rw [h1, h2, h3]
      exact (ih.cons i).trans List.perm_middle.symm

/-- If no TTS completion events occur, every push is a cache-hit arrival. -/
theorem chunkPushes_of_no_completes (hit : Nat → Bool) (tr : List SseEvent)
    (h : completeEvents tr = []) :
    chunkPushes hit tr = (arriveEvents tr).filter hit := by
  induction tr with
  | nil => rfl
  | cons e tr ih =>
    cases e with
    | arrive i =>
      have h' : completeEvents tr = [] := by simpa [completeEvents] using h
      have hcons : chunkPushes hit (SseEvent.arrive i :: tr) =
          (if hit i then [i] else []) ++ chunkPushes hit tr := by
        by_cases hh : hit i <;> simp [chunkPushes, hh]
      have hacons : arriveEvents (SseEvent.arrive i :: tr) = i :: arriveEvents tr := by
        simp [arriveEvents]
      rw [hcons, hacons, ih h']
      by_cases hh : hit i <;> simp [hh]
    | ttsComplete i => simp [completeEvents] at h

/-- Claim C1 as amended: over any valid interleaving the audio FIFO receives
each sentence's chunk exactly once (a permutation of the production order);
when every sentence is a cache hit, the pushes happen synchronously at the
arrival events and the FIFO order equals the production order S1, ..., Sn. -/
theorem sentence_order_amended (n : Nat) (hit : Nat → Bool) (tr : List SseEvent)
    (h : ValidTrace n hit tr) :
    (chunkPushes hit tr).Perm (List.range n) ∧
    ((∀ i < n, hit i = true) → chunkPushes hit tr = List.range n) := by
  constructor
  · refine (chunkPushes_perm_split hit tr).trans ?_
    rw [h.arrivals]
    refine ((List.Perm.refl _).append h.completes).trans ?_
    exact List.filter_append_perm hit (List.range n)
  · intro hall
    have hfilter : ((List.range n).filter fun i => !hit i) = [] := by
      refine List.filter_eq_nil_iff.mpr ?_
      intro a ha
      simp [hall a (List.mem_range.mp ha)]
    have hc : completeEvents tr = [] :=
      (h.completes.trans (by rw [hfilter])).eq_nil
    rw [chunkPushes_of_no_completes hit tr hc, h.arrivals]
    refine List.filter_eq_self.mpr ?_
    intro a ha
    exact hall a (List.mem_range.mp ha)

/-- Witness for sentence_order_amended: two sentences, both cache hits,
arriving in order with no completion events: the FIFO receives 0 then 1. -/
theorem sentence_order_amended_witness :
    (chunkPushes (fun _ => true) [.arrive 0, .arrive 1]).Perm (List.range 2) ∧
    chunkPushes (fun _ => true) [.arrive 0, .arrive 1] = List.range 2 := by
  have h := sentence_order_amended 2 (fun _ => true) [.arrive 0, .arrive 1]
    ⟨by decide, by decide, by decide⟩
  exact ⟨h.1, h.2 (fun i _ => rfl)⟩

/-- Claim C8, counterexample: the DONE payload only breaks the line loop of
the chunk it arrives in; a content delta carried by a later chunk is still
accumulated.  Here the first chunk is the DONE line, the second chunk parses
to the delta hello, and the returned full text is hello, not empty. -/
theorem sse_done_counterexample :
    (parseSSEStream (fun d => if d = ['X'] then some "hello".data else none)
      ["data: [DONE]".data, "data: X".data]).1 = "hello".data ∧
    "hello".data ≠ ([] : List Char) := by
  exact ⟨by decide, by decide⟩

/-- Claim C8 as amended: a line not beginning with the data prefix is
skipped; the prefix of a data line is stripped and the payload trimmed before
interpretation; a DONE payload stops the processing of the remaining lines of
the chunk in which it appears (deltas in chunks read afterwards are still
accumulated, as the counterexample shows); any other data line whose payload
parses to a non-empty delta accumulates that delta. -/
theorem sse_done_amended (parseDelta : List Char → Option (List Char))
    (st : SseState) (line : List Char) (rest : List (List Char)) :
    (line.take 6 ≠ "data: ".data →
      processLines parseDelta (line :: rest) st = processLines parseDelta rest st) ∧
    (line.take 6 = "data: ".data → jsTrimList (line.drop 6) = "[DONE]".data →
      processLines parseDelta (line :: rest) st = st) ∧
    (∀ delta, line.take 6 = "data: ".data →
      jsTrimList (line.drop 6) ≠ "[DONE]".data →
      parseDelta (jsTrimList (line.drop 6)) = some delta → delta ≠ [] →
      processLines parseDelta (line :: rest) st =
        processLines parseDelta rest (applyDelta st delta)) := by
  refine ⟨?_, ?_, ?_⟩
  · intro h
    simp only [processLines]
    rw [if_neg h]
  · intro h1 h2
    simp only [processLines, h1, h2]
    simp
  · intro delta h1 h2 h3 h4
    have h5 : delta.isEmpty = false := by
      cases delta with
      | nil => exact absurd rfl h4
      | cons a l => rfl
    simp only [processLines, h1, h2, h3, h5]
    simp [h2]

/-- Witness for sse_done_amended: a DONE line stops its chunk dead, and a
line without the data prefix is skipped. -/
theorem sse_done_amended_witness :
    processLines (fun _ => none) ["data: [DONE]".data, "data: zzz".data]
      ⟨[], [], []⟩ = ⟨[], [], []⟩ ∧
    processLines (fun _ => none) ["event: ping".data] ⟨[], [], []⟩ =
      ⟨[], [], []⟩ := by
  constructor
  · exact (sse_done_amended (fun _ => none) ⟨[], [], []⟩ "data: [DONE]".data
      ["data: zzz".data]).2.1 (by decide) (by decide)
  · exact ((sse_done_amended (fun _ => none) ⟨[], [], []⟩ "event: ping".data
      []).1 (by decide)).trans rfl

/-- Claim C3, counterexample: a buffer larger than the byte budget is evicted
by the set that stored it (the while-loop evicts the sole, freshly written
entry), so the following get misses: with budget maxSizeMb = 0 and a
one-byte buffer, get returns none and increments misses, not hits. -/
theorem cache_roundtrip_counterexample :
    (getOp "k" 2 (setOp "k" [7] 1 0 initCache)).1 = none ∧
    (getOp "k" 2 (setOp "k" [7] 1 0 initCache)).2.hits = 0 ∧
    (getOp "k" 2 (setOp "k" [7] 1 0 initCache)).2.misses = 1 := by
  refine ⟨by decide, by decide, by decide⟩

/-- Claim C3 as amended: on a well-formed cache state, for a non-empty key
(buildKey outputs are twelve hex characters) written at a time later than
every existing entry, with the buffer itself within the byte budget, set
followed by get returns exactly the stored buffer and increments the hit
counter by exactly one, leaving misses unchanged. -/
theorem cache_roundtrip_amended (st : TtsCacheState) (key : String)
    (B : List Nat) (now now2 mb : Nat) (hwf : CacheWF st)
    (hk : key ≠ "") (hlt : ∀ p ∈ st.store, p.2.lastUsed < now)
    (hfit : (B.length : Int) ≤ (mb : Int) * 1024 * 1024) :
    (getOp key now2 (setOp key B now mb st)).1 = some B ∧
    (getOp key now2 (setOp key B now mb st)).2.hits = st.hits + 1 ∧
    (getOp key now2 (setOp key B now mb st)).2.misses = st.misses := by
  obtain ⟨hwfS, hstore, _, hhits, hmiss, _, _, _, _⟩ :=
    setOp_master st key B now mb hwf hk hlt
  obtain ⟨hwf₁, hmem₁, hsplit₁, _, _, _, _, _⟩ :=
    insertPhase_spec st key B now hwf hk hlt
  have hnodupPairs : (insertPhase key B now st).store.Nodup := by
    have h := hwf₁.keysNodup
    unfold storeKeys at h
    exact h.of_map _
  have hfilter : (insertPhase key B now st).store.filter
      (fun p => decide (now ≤ p.2.lastUsed)) = [(key, newEntry B now)] := by
    refine filter_eq_singleton_of_unique hnodupPairs hmem₁
      (decide_eq_true (le_refl now)) ?_
    intro q hq hqne
    rcases hsplit₁ q hq with heq | ⟨_, hlt₂⟩
    · exact absurd heq hqne
    · exact decide_eq_false (not_le.mpr hlt₂)
  have hweight : weightAtLeast (insertPhase key B now st).store now =
      (B.length : Int) := by
    unfold weightAtLeast
    rw [hfilter]
    simp [newEntry]
  have hmemS : (key, newEntry B now) ∈ (setOp key B now mb st).store := by
    rw [hstore]
    refine List.mem_filter.mpr ⟨hmem₁, ?_⟩
    refine decide_eq_true ?_
    show weightAtLeast (insertPhase key B now st).store
      (newEntry B now).lastUsed ≤ _
    rw [show (newEntry B now).lastUsed = now from rfl, hweight]
    exact hfit
  have hget : mapGet (setOp key B now mb st).store key =
      some (newEntry B now) :=
    mapGet_eq_of_mem_nodup hwfS.keysNodup hmemS
  unfold getOp
  rw [hget]
  refine ⟨rfl, ?_, ?_⟩
  · show (setOp key B now mb st).hits + 1 = st.hits + 1
    rw [hhits]
  · show (setOp key B now mb st).misses = st.misses
    exact hmiss

/-- Witness for cache_roundtrip_amended: the empty cache, key k, a one-byte
buffer and the default 50 MB budget. -/
theorem cache_roundtrip_amended_witness :
    (getOp "k" 2 (setOp "k" [7] 1 50 initCache)).1 = some [7] ∧
    (getOp "k" 2 (setOp "k" [7] 1 50 initCache)).2.hits = 1 ∧
    (getOp "k" 2 (setOp "k" [7] 1 50 initCache)).2.misses = 0 := by
  have h := cache_roundtrip_amended initCache "k" [7] 1 2 50
    ⟨fun p hp => absurd hp (List.not_mem_nil p), List.nodup_nil,
      List.nodup_nil, rfl⟩
    (by decide) (fun p hp => absurd hp (List.not_mem_nil p)) (by norm_num)
  exact ⟨h.1, h.2.1, h.2.2⟩

/-! ## Sequences of set operations (for the LRU budget claim) -/

/-- Arguments of one cache set call: the key, the buffer, and the Date.now()
timestamp at which it runs. -/
structure SetOpArgs where
  key : String
  buffer : List Nat
  time : Nat
deriving Repr, DecidableEq

/-- A sequence of set operations against the byte budget maxSizeMb, starting
from the empty cache. -/
def runSets (maxSizeMb : Nat) (ops : List SetOpArgs) : TtsCacheState :=
  ops.foldl (fun st op => setOp op.key op.buffer op.time maxSizeMb st) initCache

/-- Folding set operations with non-empty keys at strictly increasing times
preserves well-formedness, keeps totalBytes within the budget, and keeps
every entry's timestamp below any bound above all the operation times. -/
theorem foldl_sets_invariant (mb : Nat) :
    ∀ (ops : List SetOpArgs) (st : TtsCacheState),
      CacheWF st → st.totalBytes ≤ (mb : Int) * 1024 * 1024 →
      (∀ op ∈ ops, op.key ≠ "") →
      ((ops.map fun o => o.time).Pairwise (· < ·)) →
      (∀ p ∈ st.store, ∀ op ∈ ops, p.2.lastUsed < op.time) →
      CacheWF (ops.foldl (fun s o => setOp o.key o.buffer o.time mb s) st) ∧
      (ops.foldl (fun s o => setOp o.key o.buffer o.time mb s) st).totalBytes ≤
        (mb : Int) * 1024 * 1024 ∧
      (∀ t, (∀ op ∈ ops, op.time < t) → (∀ p ∈ st.store, p.2.lastUsed < t) →
        ∀ p ∈ (ops.foldl (fun s o => setOp o.key o.buffer o.time mb s) st).store,
          p.2.lastUsed < t) := by
  intro ops
  induction ops with
  | nil =>
    intro st hwf hb _ _ _
    exact ⟨hwf, hb, fun t _ hst => hst⟩
  | cons op ops ih =>
    intro st hwf hb hkeys htimes hbelow
    have hk : op.key ≠ "" := hkeys op (List.mem_cons_self _ _)
    have hlt : ∀ p ∈ st.store, p.2.lastUsed < op.time := fun p hp =>
      hbelow p hp op (List.mem_cons_self _ _)
    obtain ⟨hwf₁, _, hb₁, _, _, _, _, _, htle⟩ :=
      setOp_master st op.key op.buffer op.time mb hwf hk hlt
    have hpw : ∀ o ∈ ops, op.time < o.time := by
      intro o ho
      exact (List.pairwise_cons.mp htimes).1 o.time (List.mem_map_of_mem _ ho)
    have hbelow₁ : ∀ p ∈ (setOp op.key op.buffer op.time mb st).store,
        ∀ o ∈ ops, p.2.lastUsed < o.time := by
      intro p hp o ho
      exact lt_of_le_of_lt (htle p hp) (hpw o ho)
    obtain ⟨H1, H2, H3⟩ := ih (setOp op.key op.buffer op.time mb st) hwf₁ hb₁
      (fun o ho => hkeys o (List.mem_cons_of_mem _ ho))
      (List.pairwise_cons.mp htimes).2 hbelow₁
    refine ⟨H1, H2, ?_⟩
    intro t ht hst p hp
    refine H3 t (fun o ho => ht o (List.mem_cons_of_mem _ ho)) ?_ p hp
    intro q hq
    exact lt_of_le_of_lt (htle q hq) (ht op (List.mem_cons_self _ _))

/-- Claim C4, counterexample: the eviction loop's oldest-key scan uses the
empty string as its falsy sentinel, so an entry stored under the empty-string
key can never be evicted: after set with key the empty string, a one-byte
buffer and budget 0, the retained size sum is 1, above the budget. -/
theorem lru_bound_counterexample :
    (setOp "" [7] 1 0 initCache).totalBytes = 1 ∧
    sumSizes (setOp "" [7] 1 0 initCache).store = 1 ∧
    ¬ ((1 : Int) ≤ (0 : Int) * 1048576) := by
  refine ⟨by decide, by decide, by decide⟩

/-- Claim C4 as amended: after any sequence of set operations with non-empty
keys (buildKey outputs) at strictly increasing timestamps, the sum of the
retained entry sizes is at most maxSizeMb * 1,048,576; moreover the entries
the last set retains are exactly those entries p of the store just after its
insertion for which the total size of the entries at least as recently used
as p fits the budget — the k most-recently-used entries for the maximal k
that fits, evicted strictly by lastUsedAt one at a time. -/
theorem lru_bound_amended (mb : Nat) (ops : List SetOpArgs)
    (hkeys : ∀ op ∈ ops, op.key ≠ "")
    (htimes : (ops.map fun o => o.time).Pairwise (· < ·)) :
    sumSizes (runSets mb ops).store ≤ (mb : Int) * 1048576 ∧
    ∀ pre op, ops = pre ++ [op] →
      (runSets mb ops).store =
        (insertPhase op.key op.buffer op.time (runSets mb pre)).store.filter
          (fun p => decide (weightAtLeast
            (insertPhase op.key op.buffer op.time (runSets mb pre)).store
            p.2.lastUsed ≤ (mb : Int) * 1024 * 1024)) := by
  have hwf0 : CacheWF initCache :=
    ⟨fun p hp => absurd hp (List.not_mem_nil p), List.nodup_nil,
      List.nodup_nil, rfl⟩
  have hb0 : initCache.totalBytes ≤ (mb : Int) * 1024 * 1024 := by
    show (0 : Int) ≤ _
    positivity
  constructor
  · obtain ⟨HW, HB, _⟩ := foldl_sets_invariant mb ops initCache hwf0 hb0
      hkeys htimes (fun p hp => absurd hp (List.not_mem_nil p))
    calc sumSizes (runSets mb ops).store
        = (runSets mb ops).totalBytes := HW.sumInv.symm
      _ ≤ (mb : Int) * 1024 * 1024 := HB
      _ = (mb : Int) * 1048576 := by ring_nf
  · intro pre op hops
    subst hops
    have hkeysPre : ∀ o ∈ pre, o.key ≠ "" := fun o ho =>
      hkeys o (List.mem_append_left _ ho)
    have hkOp : op.key ≠ "" :=
      hkeys op (List.mem_append_right _ (List.mem_singleton.mpr rfl))
    rw [List.map_append] at htimes
    have hps := List.pairwise_append.mp htimes
    have hcross : ∀ o ∈ pre, o.time < op.time := by
      intro o ho
      exact hps.2.2 o.time (List.mem_map_of_mem _ ho) op.time (by simp)
    obtain ⟨HWpre, HBpre, HT⟩ := foldl_sets_invariant mb pre initCache hwf0
      hb0 hkeysPre hps.1 (fun p hp => absurd hp (List.not_mem_nil p))
    have hltPre : ∀ p ∈ (runSets mb pre).store, p.2.lastUsed < op.time :=
      HT op.time hcross (fun p hp => absurd hp (List.not_mem_nil p))
    obtain ⟨_, hstore, _, _, _, _, _, _, _⟩ := setOp_master (runSets mb pre)
      op.key op.buffer op.time mb HWpre hkOp hltPre
    have hfold : runSets mb (pre ++ [op]) =
        setOp op.key op.buffer op.time mb (runSets mb pre) := by
      unfold runSets
      rw [List.foldl_append]
      rfl
    rw [hfold]
    exact hstore

/-- Witness for lru_bound_amended: two sets with one- and two-byte buffers
under the default 50 MB budget; both entries are retained and the filter
characterisation holds for the final set. -/
theorem lru_bound_amended_witness :
    sumSizes (runSets 50 [⟨"a", [1], 1⟩, ⟨"b", [2, 2], 2⟩]).store ≤
      (50 : Int) * 1048576 ∧
    (runSets 50 [⟨"a", [1], 1⟩, ⟨"b", [2, 2], 2⟩]).store =
      (insertPhase "b" [2, 2] 2 (runSets 50 [⟨"a", [1], 1⟩])).store.filter
        (fun p => decide (weightAtLeast
          (insertPhase "b" [2, 2] 2 (runSets 50 [⟨"a", [1], 1⟩])).store
          p.2.lastUsed ≤ (50 : Int) * 1024 * 1024)) := by
  have h := lru_bound_amended 50 [⟨"a", [1], 1⟩, ⟨"b", [2, 2], 2⟩]
    (by decide) (by decide)
  exact ⟨h.1, h.2 [⟨"a", [1], 1⟩] ⟨"b", [2, 2], 2⟩ rfl⟩

/-! ## Lemmas for getRandomGreeting -/

theorem setLastKey_frame (st : TtsCacheState) (label : PhraseLabel) (k : String) :
    (setLastKey st label k).store = st.store ∧
    (setLastKey st label k).hits = st.hits ∧
    (setLastKey st label k).bakedOggKeys = st.bakedOggKeys ∧
    (setLastKey st label k).greetingKeys = st.greetingKeys ∧
    (setLastKey st label k).checkInKeys = st.checkInKeys := by
  cases label <;> exact ⟨rfl, rfl, rfl, rfl, rfl⟩

theorem lastKey_setLastKey_self (st : TtsCacheState) (label : PhraseLabel)
    (k : String) : lastKey (setLastKey st label k) label = some k := by
  cases label <;> rfl

/-- The some-branch of getRandomGreeting: the chosen key is recorded as the
label's last key, the entry is touched to now, the hit counter increments,
and the buffer is returned with its baked flag. -/
theorem getRandom_some {st : TtsCacheState} {label : PhraseLabel}
    {r now : Nat} {chosen : String} {entry : CacheEntry}
    (hc : chosenGreetingKey st label r = some chosen)
    (he : mapGet st.store chosen = some entry) :
    getRandomGreetingOp label r now st =
      (some (entry.buffer, st.bakedOggKeys.contains chosen),
       { setLastKey st label chosen with
         store := mapSet st.store chosen { entry with lastUsed := now }
         hits := st.hits + 1 }) := by
  obtain ⟨hS, hH, hB, _, _⟩ := setLastKey_frame st label chosen
  unfold getRandomGreetingOp
  rw [hc]
  show (match mapGet (setLastKey st label chosen).store chosen with
    | none => (none, setLastKey st label chosen)
    | some entry =>
        (some (entry.buffer, (setLastKey st label chosen).bakedOggKeys.contains chosen),
         { setLastKey st label chosen with
           store := mapSet (setLastKey st label chosen).store chosen
             { entry with lastUsed := now }
           hits := (setLastKey st label chosen).hits + 1 })) = _
  rw [hS, he, hB, hH]

theorem labelKeys_getRandom_frame (label label₂ : PhraseLabel) (r now : Nat)
    (st : TtsCacheState) :
    labelKeys (getRandomGreetingOp label r now st).2 label₂ =
      labelKeys st label₂ := by
  unfold getRandomGreetingOp
  cases hc : chosenGreetingKey st label r with
  | none => rfl
  | some chosen =>
    obtain ⟨_, _, _, hG, hC⟩ := setLastKey_frame st label chosen
    show labelKeys (match mapGet (setLastKey st label chosen).store chosen with
      | none => (none, setLastKey st label chosen)
      | some entry =>
          (some (entry.buffer,
            (setLastKey st label chosen).bakedOggKeys.contains chosen),
           { setLastKey st label chosen with
             store := mapSet (setLastKey st label chosen).store chosen
               { entry with lastUsed := now }
             hits := (setLastKey st label chosen).hits + 1 })).2 label₂ =
      labelKeys st label₂
    cases mapGet (setLastKey st label chosen).store chosen with
    | none =>
        cases label₂ with
        | greetings => exact hG
        | checkIns => exact hC
    | some entry =>
        cases label₂ with
        | greetings => exact hG
        | checkIns => exact hC

/-- With a duplicate-free label set, a non-empty available list yields a
chosen key, and the chosen key is an available key. -/
theorem chosenGreetingKey_mem (st : TtsCacheState) (label : PhraseLabel)
    (r : Nat) (hnd : (labelKeys st label).Nodup)
    (h1 : 0 < (availableKeys st label).length) :
    ∃ k, chosenGreetingKey st label r = some k ∧ k ∈ availableKeys st label := by
  have hnd₂ : (availableKeys st label).Nodup := hnd.filter _
  have hlk : (labelKeys st label).length ≠ 0 := by
    have := List.length_filter_le
      (fun k => (mapGet st.store k).isSome) (labelKeys st label)
    unfold availableKeys at h1
    omega
  have hcand : 0 < (greetingCandidates st label).length ∧
      ∀ k ∈ greetingCandidates st label, k ∈ availableKeys st label := by
    cases hl : lastKey st label with
    | none =>
        have hgeq : greetingCandidates st label = availableKeys st label := by
          unfold greetingCandidates
          rw [hl]
        rw [hgeq]
        exact ⟨h1, fun k hk => hk⟩
    | some l =>
        have hgeq : greetingCandidates st label =
            if l ≠ "" ∧ 1 < (availableKeys st label).length then
              (availableKeys st label).filter (fun k => k ≠ l)
            else availableKeys st label := by
          unfold greetingCandidates
          rw [hl]
        rw [hgeq]
        by_cases hg : l ≠ "" ∧ 1 < (availableKeys st label).length
        · rw [if_pos hg]
          constructor
          · have herase : (availableKeys st label).filter (fun k => k ≠ l) =
                (availableKeys st label).erase l := by
              rw [List.Nodup.erase_eq_filter hnd₂]
              refine List.filter_congr ?_
              intro x _
              by_cases hx : x = l
              · simp [hx, bne]
              · simp [hx, bne]
            rw [herase]
            by_cases hmem : l ∈ availableKeys st label
            · rw [List.length_erase_of_mem hmem]
              omega
            · rw [List.erase_of_not_mem hmem]
              omega
          · intro k hk
            exact List.mem_of_mem_filter hk
        · rw [if_neg hg]
          exact ⟨h1, fun k hk => hk⟩
  refine ⟨(greetingCandidates st label).getD
    (r % (greetingCandidates st label).length) "", ?_, ?_⟩
  · unfold chosenGreetingKey
    rw [if_neg hlk, if_neg (by omega)]
  · refine hcand.2 _ ?_
    have hidx : r % (greetingCandidates st label).length <
        (greetingCandidates st label).length :=
      Nat.mod_lt _ hcand.1
    rw [List.getD_eq_getElem _ _ hidx]
    exact List.getElem_mem _

/-- The second call sees the same available keys: touching lastUsed does not
change which keys have live entries. -/
theorem availableKeys_getRandom {st : TtsCacheState} {label : PhraseLabel}
    {r now : Nat} {chosen : String} {entry : CacheEntry}
    (hc : chosenGreetingKey st label r = some chosen)
    (he : mapGet st.store chosen = some entry) (label₂ : PhraseLabel) :
    availableKeys (getRandomGreetingOp label r now st).2 label₂ =
      availableKeys st label₂ := by
  have hmemk : chosen ∈ storeKeys st.store :=
    mapGet_isSome_iff.mp (by rw [he]; rfl)
  have hkeys : storeKeys (getRandomGreetingOp label r now st).2.store =
      storeKeys st.store := by
    rw [getRandom_some hc he]
    exact storeKeys_mapSet_mem hmemk
  unfold availableKeys
  rw [labelKeys_getRandom_frame]
  refine List.filter_congr ?_
  intro k _
  by_cases hmem : k ∈ storeKeys st.store
  · have h1 : (mapGet (getRandomGreetingOp label r now st).2.store k).isSome =
        true := mapGet_isSome_iff.mpr (hkeys ▸ hmem)
    have h2 : (mapGet st.store k).isSome = true := mapGet_isSome_iff.mpr hmem
    rw [h1, h2]
  · have h1 : (mapGet (getRandomGreetingOp label r now st).2.store k).isSome =
        false := by
      rw [← Bool.not_eq_true]
      intro hs
      exact hmem (hkeys ▸ mapGet_isSome_iff.mp hs)
    have h2 : (mapGet st.store k).isSome = false := by
      rw [← Bool.not_eq_true]
      intro hs
      exact hmem (mapGet_isSome_iff.mp hs)
    rw [h1, h2]

theorem mapGet_mapSet_self (store : Store) (k : String) (e : CacheEntry) :
    mapGet (mapSet store k e) k = some e := by
  induction store with
  | nil =>
    show mapGet ([] ++ [(k, e)]) k = some e
    exact mapGet_cons_eq rfl
  | cons p rest ih =>
    by_cases hp : p.1 = k
    · have hany : ((p :: rest).any fun q => q.1 = k) = true :=
        List.any_eq_true.mpr ⟨p, List.mem_cons_self _ _, by simpa using hp⟩
      unfold mapSet
      rw [if_pos hany]
      simp only [List.map_cons, if_pos hp]
      exact mapGet_cons_eq rfl
    · rw [mapSet_cons_ne hp, mapGet_cons_ne hp]
      exact ih

/-- A duplicate-free available list with at least two keys: excluding one key
leaves at least one candidate. -/
theorem length_filter_ne_pos {l : List String} {a : String} (hnd : l.Nodup)
    (h : 1 < l.length) : 0 < (l.filter fun k => k ≠ a).length := by
  have herase : l.filter (fun k => k ≠ a) = l.erase a := by
    rw [List.Nodup.erase_eq_filter hnd]
    refine List.filter_congr ?_
    intro x _
    by_cases hx : x = a
    · simp [hx, bne]
    · simp [hx, bne]
  rw [herase]
  by_cases hmem : a ∈ l
  · rw [List.length_erase_of_mem hmem]
    omega
  · rw [List.erase_of_not_mem hmem]
    omega

/-- When the last key is truthy and alternatives exist, the chosen key avoids
the last key. -/
theorem chosenGreetingKey_excludes {st : TtsCacheState} {label : PhraseLabel}
    {r : Nat} {k2 l : String} (hl : lastKey st label = some l) (hlne : l ≠ "")
    (hgt : 1 < (availableKeys st label).length)
    (hnd : (availableKeys st label).Nodup)
    (hc : chosenGreetingKey st label r = some k2) :
    k2 ≠ l ∧ k2 ∈ availableKeys st label := by
  have hgeq : greetingCandidates st label =
      (availableKeys st label).filter (fun k => k ≠ l) := by
    unfold greetingCandidates
    rw [hl]
    show (if l ≠ "" ∧ 1 < (availableKeys st label).length then
        (availableKeys st label).filter (fun k => k ≠ l)
      else availableKeys st label) = _
    rw [if_pos ⟨hlne, hgt⟩]
  have hcl : 0 < (greetingCandidates st label).length := by
    rw [hgeq]
    exact length_filter_ne_pos hnd hgt
  have hlk : (labelKeys st label).length ≠ 0 := by
    have := List.length_filter_le
      (fun k => (mapGet st.store k).isSome) (labelKeys st label)
    unfold availableKeys at hgt
    omega
  unfold chosenGreetingKey at hc
  rw [if_neg hlk, if_neg (by omega)] at hc
  have hk2 : k2 = (greetingCandidates st label).getD
      (r % (greetingCandidates st label).length) "" := (Option.some.inj hc).symm
  have hidx : r % (greetingCandidates st label).length <
      (greetingCandidates st label).length := Nat.mod_lt _ hcl
  have hmemc : k2 ∈ greetingCandidates st label := by
    rw [hk2, List.getD_eq_getElem _ _ hidx]
    exact List.getElem_mem _
  rw [hgeq] at hmemc
  have := List.mem_filter.mp hmemc
  exact ⟨by simpa using this.2, this.1⟩

/-- A cache state with live entries under the empty-string key and the key a,
both registered as greetings. -/
def greetingCounterState : TtsCacheState :=
  { store := [("", ⟨[1], 0, 1⟩), ("a", ⟨[2], 0, 1⟩)], hits := 0, misses := 0,
    totalBytes := 2, greetingKeys := ["", "a"], checkInKeys := [],
    lastGreeting := none, lastCheckIn := none, bakedOggKeys := [] }

/-- Claim C7, counterexample: the no-repeat exclusion treats the previously
returned key as a JS truthy value, so a key that is the empty string is never
excluded: with live registered keys for the empty string and for a, two
successive calls whose random indices both point at the empty-string key
return the same key, even though two live alternatives exist. -/
theorem greeting_no_repeat_counterexample :
    2 ≤ (availableKeys greetingCounterState .greetings).length ∧
    chosenGreetingKey greetingCounterState .greetings 0 = some "" ∧
    2 ≤ (availableKeys
      (getRandomGreetingOp .greetings 0 5 greetingCounterState).2
      .greetings).length ∧
    chosenGreetingKey
      (getRandomGreetingOp .greetings 0 5 greetingCounterState).2
      .greetings 0 = some "" := by
  refine ⟨by decide, by decide, by decide, by decide⟩

/-- Claim C7 as amended: for a label whose registered key list is
duplicate-free (JS Set semantics) and whose keys are non-empty strings
(buildKey outputs), whenever at least two registered keys have live cache
entries, a call to getRandomGreeting succeeds, records its key, updates the
chosen entry's lastUsed to now and increments the hit counter by one, and an
immediately following call never returns the same key. -/
theorem greeting_no_repeat_amended (st : TtsCacheState) (label : PhraseLabel)
    (r1 r2 now1 : Nat) (hnd : (labelKeys st label).Nodup)
    (hne : ∀ k ∈ labelKeys st label, k ≠ "")
    (h2 : 2 ≤ (availableKeys st label).length) :
    ∃ k1 entry, chosenGreetingKey st label r1 = some k1 ∧
      mapGet st.store k1 = some entry ∧
      (getRandomGreetingOp label r1 now1 st).1 =
        some (entry.buffer, st.bakedOggKeys.contains k1) ∧
      (getRandomGreetingOp label r1 now1 st).2.hits = st.hits + 1 ∧
      mapGet (getRandomGreetingOp label r1 now1 st).2.store k1 =
        some { entry with lastUsed := now1 } ∧
      (∀ k2, chosenGreetingKey (getRandomGreetingOp label r1 now1 st).2
        label r2 = some k2 → k2 ≠ k1) := by
  obtain ⟨k1, hc1, hmem1⟩ := chosenGreetingKey_mem st label r1 hnd (by omega)
  have hmf := List.mem_filter.mp hmem1
  obtain ⟨entry, he⟩ := Option.isSome_iff_exists.mp hmf.2
  have hres := @getRandom_some st label r1 now1 k1 entry hc1 he
  have hk1ne : k1 ≠ "" := hne k1 hmf.1
  refine ⟨k1, entry, hc1, he, ?_, ?_, ?_, ?_⟩
  · rw [hres]
  · rw [hres]
  · rw [hres]
    show mapGet (mapSet st.store k1 { entry with lastUsed := now1 }) k1 = _
    exact mapGet_mapSet_self _ _ _
  · intro k2 hc2
    have hlast : lastKey (getRandomGreetingOp label r1 now1 st).2 label =
        some k1 := by
      rw [hres]
      cases label <;> rfl
    have havail : availableKeys (getRandomGreetingOp label r1 now1 st).2 label =
        availableKeys st label := availableKeys_getRandom hc1 he label
    have hnd₂ : (availableKeys
        (getRandomGreetingOp label r1 now1 st).2 label).Nodup := by
      rw [havail]
      exact hnd.filter _
    have hgt : 1 < (availableKeys
        (getRandomGreetingOp label r1 now1 st).2 label).length := by
      rw [havail]
      omega
    exact (chosenGreetingKey_excludes hlast hk1ne hgt hnd₂ hc2).1

/-- Witness for greeting_no_repeat_amended: two live non-empty keys
registered under greetings. -/
theorem greeting_no_repeat_amended_witness :
    ∃ k1 entry,
      chosenGreetingKey
        { store := [("a", ⟨[1], 0, 1⟩), ("b", ⟨[2], 0, 1⟩)], hits := 0,
          misses := 0, totalBytes := 2, greetingKeys := ["a", "b"],
          checkInKeys := [], lastGreeting := none, lastCheckIn := none,
          bakedOggKeys := [] } .greetings 0 = some k1 ∧
      mapGet [("a", ⟨[1], 0, 1⟩), ("b", ⟨[2], 0, 1⟩)] k1 = some entry ∧
      (getRandomGreetingOp .greetings 0 9
        { store := [("a", ⟨[1], 0, 1⟩), ("b", ⟨[2], 0, 1⟩)], hits := 0,
          misses := 0, totalBytes := 2, greetingKeys := ["a", "b"],
          checkInKeys := [], lastGreeting := none, lastCheckIn := none,
          bakedOggKeys := [] }).1 = some (entry.buffer, false) ∧
      (getRandomGreetingOp .greetings 0 9
        { store := [("a", ⟨[1], 0, 1⟩), ("b", ⟨[2], 0, 1⟩)], hits := 0,
          misses := 0, totalBytes := 2, greetingKeys := ["a", "b"],
          checkInKeys := [], lastGreeting := none, lastCheckIn := none,
          bakedOggKeys := [] }).2.hits = 1 ∧
      mapGet (getRandomGreetingOp .greetings 0 9
        { store := [("a", ⟨[1], 0, 1⟩), ("b", ⟨[2], 0, 1⟩)], hits := 0,
          misses := 0, totalBytes := 2, greetingKeys := ["a", "b"],
          checkInKeys := [], lastGreeting := none, lastCheckIn := none,
          bakedOggKeys := [] }).2.store k1 = some { entry with lastUsed := 9 } ∧
      (∀ k2, chosenGreetingKey (getRandomGreetingOp .greetings 0 9
        { store := [("a", ⟨[1], 0, 1⟩), ("b", ⟨[2], 0, 1⟩)], hits := 0,
          misses := 0, totalBytes := 2, greetingKeys := ["a", "b"],
          checkInKeys := [], lastGreeting := none, lastCheckIn := none,
          bakedOggKeys := [] }).2 .greetings 1 = some k2 → k2 ≠ k1) := by
  have h := greeting_no_repeat_amended
    { store := [("a", ⟨[1], 0, 1⟩), ("b", ⟨[2], 0, 1⟩)], hits := 0,
      misses := 0, totalBytes := 2, greetingKeys := ["a", "b"],
      checkInKeys := [], lastGreeting := none, lastCheckIn := none,
      bakedOggKeys := [] } .greetings 0 1 9 (by decide) (by decide) (by decide)
  obtain ⟨k1, entry, h1, h2, h3, h4, h5, h6⟩ := h
  exact ⟨k1, entry, h1, h2, by simpa using h3, h4, h5, h6⟩

/-! Concrete checks of the embedded string and regex models on
representative inputs. -/

example : jsSplitWsCount "" = 1 := by decide
example : jsSplitWsCount "um" = 1 := by decide
example : jsSplitWsCount "hello there" = 2 := by decide
example : jsSplitWsCount " a " = 3 := by decide
example : isNoise "Um." = true := by decide
example : isNoise "huh" = true := by decide
example : isNoise "..." = true := by decide
example : isNoise "hello" = false := by decide
example : isNoise "you" = false := by decide
example : isNoise "um um um" = false := by decide
example : (splitSentences "Hi there. How are you?".data).1 =
    ["Hi there.".data] := by decide
example : (splitSentences "Hi there. How are you?".data).2 =
    "How are you?".data := by decide
example : (splitSentences "line one\nrest".data).1 =
    ["line one".data] := by decide
example : cleanForTTS "**bold** and plain".data = "bold and plain".data := by
  decide
example : cleanForTTS "[text](http://x)".data = "text".data := by decide
example : cleanForTTS "# Header\nbody".data = "Header body".data := by decide
example : jsTrim "  hi  " = "hi" := by decide

end Voxclaw
